import Mathlib

/-!
# resource-quota-check: shallow embedding and verified properties

The Go program lists the namespaces of a cluster, filters them through a
blacklist and a whitelist, lists the resource quotas of each namespace that
remains, and reports every quota whose CPU or memory usage, as a `float64`
fraction of its hard limit, has reached a threshold.

Layout:
* `F64`: the IEEE 754 binary64 values with correctly rounded conversion from
  integers, division and the ordered comparisons, as Go's `float64` has them;
* the Go `fmt` verbs the messages use;
* `resources.go`, `checkConfig.go` and `main.go`, function by function;
* the theorems.
-/

namespace ResourceQuotaCheck

/-! ## binary64 -/

/-- Number of binary digits of a natural number, by halving (`fuel` bounds the
number of halvings). -/
def bitLenAux : Nat → Nat → Nat
  | 0, _ => 0
  | fuel + 1, n => if n = 0 then 0 else bitLenAux fuel (n / 2) + 1

/-- Number of binary digits of `n`: `0` for `0`, otherwise the `k` with
`2 ^ (k - 1) ≤ n < 2 ^ k`. -/
def bitLen (n : Nat) : Nat := bitLenAux n n

/-- The value of Go's `float64`. A finite value is `(-1) ^ neg * m * 2 ^ (ex - 1074)`:
the exponent is stored with the bias `1074`, so that `ex = 0` is the binade of
the subnormal numbers and every exponent is a natural number. -/
inductive F64 where
  | nan : F64
  | inf (neg : Bool) : F64
  | fin (neg : Bool) (m : Nat) (ex : Nat) : F64
  deriving DecidableEq, Repr

namespace F64

/-- Positive zero. -/
def zero : F64 := fin false 0 0

/-- For `0 < p` and `0 < q`: the integer part of the binary logarithm of
`p * 2 ^ 1074 / q`, the quotient counted in units of the smallest subnormal
number; `0` when that quotient is below `1`. -/
def floorLog (p q : Nat) : Nat :=
  let k0 := bitLen p + 1074 - bitLen q
  if q * 2 ^ k0 ≤ p * 2 ^ 1074 then k0 else k0 - 1

/-- The biased exponent of the last binary digit kept when `p / q` is rounded
to 53 digits: `0` in the subnormal range. -/
def roundExp (p q : Nat) : Nat := floorLog p q - 52

/-- The integer nearest to `p / q` counted in units of `2 ^ (roundExp p q - 1074)`,
ties to even: the 53 digits kept, `2 ^ 53` when rounding carries out of them. -/
def roundMant (p q : Nat) : Nat :=
  let den := q * 2 ^ roundExp p q
  let m0 := p * 2 ^ 1074 / den
  let r := p * 2 ^ 1074 % den
  if den < 2 * r ∨ (2 * r = den ∧ m0 % 2 = 1) then m0 + 1 else m0

/-- Round the rational `p / q` with `0 < p` and `0 < q` to the nearest binary64
magnitude, ties to even. The result is the pair `(m, ex)` of
`m * 2 ^ (ex - 1074)` with `m < 2 ^ 53`, or `none` when the rounded magnitude is
`2 ^ 1024` or more (overflow to infinity). -/
def roundMag (p q : Nat) : Option (Nat × Nat) :=
  if 2 ^ 2098 ≤ roundMant p q * 2 ^ roundExp p q then none
  -- a carry out of the 53 digits moves to the next binade
  else if roundMant p q = 2 ^ 53 then some (2 ^ 52, roundExp p q + 1)
  else some (roundMant p q, roundExp p q)

/-- The binary64 nearest to `(-1) ^ neg * p / q`, for `q ≠ 0`. -/
def ofRatio (neg : Bool) (p q : Nat) : F64 :=
  if p = 0 then fin neg 0 0
  else
    match roundMag p q with
    | none => inf neg
    | some (m, ex) => fin neg m ex

/-- Go's conversion `float64(n)` of an integer. -/
def ofInt (n : Int) : F64 :=
  ofRatio (decide (n < 0)) n.natAbs 1

/-- IEEE 754 division `x / y`. -/
def div : F64 → F64 → F64
  | nan, _ => nan
  | _, nan => nan
  | inf _, inf _ => nan
  | inf s, fin t _ _ => inf (xor s t)
  | fin s _ _, inf t => fin (xor s t) 0 0
  | fin s m1 e1, fin t m2 e2 =>
    if m2 = 0 then
      if m1 = 0 then nan else inf (xor s t)
    else ofRatio (xor s t) (m1 * 2 ^ (e1 - min e1 e2)) (m2 * 2 ^ (e2 - min e1 e2))

/-- IEEE 754 `x ≤ y`: false as soon as one side is NaN; the two zeros are equal. -/
def le : F64 → F64 → Bool
  | nan, _ => false
  | _, nan => false
  | inf s, inf t => s || !t
  | inf s, fin _ _ _ => s
  | fin _ _ _, inf t => !t
  | fin s m1 e1, fin t m2 e2 =>
    match s, t with
    | false, false => decide (m1 * 2 ^ e1 ≤ m2 * 2 ^ e2)
    | true, false => true
    | false, true => decide (m1 = 0 ∧ m2 = 0)
    | true, true => decide (m2 * 2 ^ e2 ≤ m1 * 2 ^ e1)

/-- IEEE 754 `x < y`: false as soon as one side is NaN. -/
def lt : F64 → F64 → Bool
  | nan, _ => false
  | _, nan => false
  | inf s, inf t => s && !t
  | inf s, fin _ _ _ => s
  | fin _ _ _, inf t => !t
  | fin s m1 e1, fin t m2 e2 =>
    match s, t with
    | false, false => decide (m1 * 2 ^ e1 < m2 * 2 ^ e2)
    | true, false => decide (¬ (m1 = 0 ∧ m2 = 0))
    | false, true => false
    | true, true => decide (m2 * 2 ^ e2 < m1 * 2 ^ e1)

/-- The significand of a finite value, `0` for NaN and the infinities. A value
of binary64 has a significand below `2 ^ 53`. -/
def mant : F64 → Nat
  | fin _ m _ => m
  | _ => 0

/-- The rational number a finite value stands for; `0` for NaN and the
infinities. -/
def toRat : F64 → ℚ
  | fin s m ex => (if s then -1 else 1) * ((m : ℚ) * 2 ^ ex / 2 ^ 1074)
  | _ => 0

/-- Go's `x >= y`. -/
def ge (x y : F64) : Bool := le y x

/-- Go's `x > y`. -/
def gt (x y : F64) : Bool := lt y x

end F64

/-- Whether `v` is a value of Go's `int64`. -/
def isInt64 (v : Int) : Prop := -(2 ^ 63) ≤ v ∧ v < 2 ^ 63

instance (v : Int) : Decidable (isInt64 v) := by
  unfold isInt64
  infer_instance

/-! ## Go's `fmt` verbs and errors -/

/-- Pad `s` on the left with spaces up to the width `w` (a width of `fmt`). -/
def padLeft (w : Nat) (s : String) : String :=
  "".pushn ' ' (w - s.length) ++ s

/-- The decimal digits of `n`, padded on the left with zeros up to `w` digits. -/
def zeroPad (w : Nat) (n : Nat) : String :=
  "".pushn '0' (w - (toString n).length) ++ toString n

/-- Go's verb `%d` on an `int64`. -/
def fmtInt (n : Int) : String := toString n

/-- Go's verb `%w.pf` on a `float64` (`%4.2f` is `fmtFloat 4 2`): the exact
value rounded to `p` decimals, ties to even, padded on the left to the width
`w`; `NaN`, `+Inf` and `-Inf` for the special values. -/
def fmtFloat (w p : Nat) : F64 → String
  | F64.nan => padLeft w "NaN"
  | F64.inf false => padLeft w "+Inf"
  | F64.inf true => padLeft w "-Inf"
  | F64.fin s m ex =>
    let num := m * 2 ^ ex * 10 ^ p
    let den := 2 ^ 1074
    let n0 := num / den
    let r := num % den
    let n := if den < 2 * r ∨ (2 * r = den ∧ n0 % 2 = 1) then n0 + 1 else n0
    let frac := if p = 0 then "" else "." ++ zeroPad p (n % 10 ^ p)
    padLeft w ((if s then "-" else "") ++ toString (n / 10 ^ p) ++ frac)

/-- The Go `error` values of the program: the two sentinels of package
`context`, an error known by its text, and `fmt.Errorf(pre + "%w", inner)`. -/
inductive GoError where
  | deadlineExceeded : GoError
  | canceled : GoError
  | other (msg : String) : GoError
  | wrap (pre : String) (inner : GoError) : GoError
  deriving DecidableEq, Repr

/-- Go's `err.Error()`. -/
def GoError.Error : GoError → String
  | deadlineExceeded => "context deadline exceeded"
  | canceled => "context canceled"
  | other msg => msg
  | wrap pre inner => pre ++ inner.Error

/-! ## The cluster -/

/-- A `corev1.ResourceList` restricted to its `cpu` and `memory` entries, each
in milli-units (`MilliValue()`); `none` when the entry is missing. -/
structure ResourceList where
  cpu : Option Int
  memory : Option Int
  deriving DecidableEq, Repr

/-- Go's `list.Cpu().MilliValue()`: a missing entry is the zero quantity. -/
def ResourceList.CpuMilliValue (l : ResourceList) : Int := l.cpu.getD 0

/-- Go's `list.Memory().MilliValue()`: a missing entry is the zero quantity. -/
def ResourceList.MemoryMilliValue (l : ResourceList) : Int := l.memory.getD 0

/-- The `Status` of a `corev1.ResourceQuota`. -/
structure ResourceQuotaStatus where
  Hard : ResourceList
  Used : ResourceList
  deriving DecidableEq, Repr

/-- A `corev1.ResourceQuota`, as far as the check reads it. -/
structure ResourceQuota where
  Status : ResourceQuotaStatus
  deriving DecidableEq, Repr

/-- The two calls the check makes on `*kubernetes.Clientset`: the names of the
listed namespaces in listing order, and the quota objects of a namespace in
listing order; either call can fail. -/
structure Clientset where
  Namespaces : Except GoError (List String)
  ResourceQuotas : String → Except GoError (List ResourceQuota)

/-- The `context.Context` of the pass, as the loop observes it: `Err i` is what
`ctx.Err()` returns at the top of iteration `i` of the namespace loop. Once it
is not nil it stays the same error, so the second call in
`return nil, ctx.Err()` returns what the test has just seen. -/
structure Context where
  Err : Nat → Option GoError

/-! ## checkConfig.go -/

/-- A `time.Duration`: nanoseconds. -/
abbrev Duration := Int

/-- A `time.Time`: nanoseconds since the Unix epoch. -/
abbrev Time := Int

/-- Go's `time.Second`. -/
def Second : Duration := 1000000000

/-- Go's `time.Minute`. -/
def Minute : Duration := 60 * Second

/-- Go's `t.Add(d)`. -/
def Time.Add (t : Time) (d : Duration) : Time := t + d

/-- Go's `t.Sub(u)`: the difference, saturated to the range of `int64`. -/
def Time.Sub (t u : Time) : Duration :=
  if t - u < -(2 ^ 63) then -(2 ^ 63)
  else if 2 ^ 63 - 1 < t - u then 2 ^ 63 - 1
  else t - u

/-- Constant `defaultThreshold = 0.9`. -/
def defaultThreshold : F64 := F64.ofRatio false 9 10

/-- Constant `defaultCheckTimeLimit = 5 * time.Minute`. -/
def defaultCheckTimeLimit : Duration := 5 * Minute

/-- Struct `CheckConfig`. -/
structure CheckConfig where
  KubeConfigFile : String
  Blacklist : List String
  Whitelist : List String
  Threshold : F64
  CheckTimeLimit : Duration
  Debug : Bool
  deriving DecidableEq, Repr

/-- What `parseConfig` reads from outside the program: `os.Getenv` (the empty
string for an unset variable), `strconv.ParseBool`, `strconv.ParseFloat` at 64
bits, the pair returned by `checkclient.GetDeadline()` and `time.Now()`. -/
structure World where
  Getenv : String → String
  ParseBool : String → Except GoError Bool
  ParseFloat : String → Except GoError F64
  GetDeadline : Time × Option GoError
  Now : Time

/-- Function `parseDebugSetting`. -/
def parseDebugSetting (w : World) : Except GoError Bool :=
  let debugEnv := w.Getenv "DEBUG"
  if debugEnv.length ≠ 0 then
    match w.ParseBool debugEnv with
    | .error err => .error (GoError.wrap "failed to parse DEBUG environment variable: " err)
    | .ok parsedDebug => .ok parsedDebug
  else .ok false

/-- The threshold part of `parseConfig`: the two range tests applied, in the
order of the source, to the value read from `THRESHOLD` or to the default. -/
def normalizeThreshold (threshold : F64) : F64 :=
  let threshold :=
    if F64.gt threshold (F64.ofRatio false 99 100) then defaultThreshold else threshold
  let threshold := if F64.le threshold F64.zero then defaultThreshold else threshold
  threshold

/-- Function `parseConfig`. -/
def parseConfig (w : World) : Except GoError CheckConfig :=
  match parseDebugSetting w with
  | .error err => .error err
  | .ok debug =>
    let blacklistEnv := w.Getenv "BLACKLIST"
    let blacklist := if blacklistEnv.length ≠ 0 then blacklistEnv.splitOn "," else []
    let whitelistEnv := w.Getenv "WHITELIST"
    let whitelist := if whitelistEnv.length ≠ 0 then whitelistEnv.splitOn "," else []
    let thresholdEnv := w.Getenv "THRESHOLD"
    let parsed : Except GoError F64 :=
      if thresholdEnv.length ≠ 0 then
        match w.ParseFloat thresholdEnv with
        | .error parseErr =>
          .error (GoError.wrap "error occurred attempting to parse THRESHOLD: " parseErr)
        | .ok parsedThreshold => .ok parsedThreshold
      else .ok defaultThreshold
    match parsed with
    | .error err => .error err
    | .ok threshold =>
      let threshold := normalizeThreshold threshold
      -- `checkTimeLimit := defaultCheckTimeLimit` is overwritten on both
      -- outcomes of `GetDeadline`: the error is logged only
      let timeDeadline := w.GetDeadline.1
      let checkTimeLimit := Time.Sub timeDeadline (Time.Add w.Now (Second * 5))
      .ok {
        KubeConfigFile := w.Getenv "KUBECONFIG"
        Blacklist := blacklist
        Whitelist := whitelist
        Threshold := threshold
        CheckTimeLimit := checkTimeLimit
        Debug := debug }

/-! ## resources.go -/

/-- Function `contains`. -/
def contains (value : String) : List String → Bool
  | [] => false
  | item :: list => if value = item then true else contains value list

/-- Function `shouldSkipNamespace`. -/
def shouldSkipNamespace (ns : String) (cfg : CheckConfig) : Bool :=
  if cfg.Blacklist.length > 0 ∧ contains ns cfg.Blacklist = true then true
  else if cfg.Whitelist.length > 0 ∧ contains ns cfg.Whitelist = false then true
  else false

/-- The message of the CPU branch of `examineResourceQuotasForNamespace`. -/
def cpuMessage (ns : String) (threshold : F64) (used limit : Int) (percent : F64) : String :=
  "cpu for " ++ ns ++ " namespace has reached threshold of " ++ fmtFloat 4 2 threshold
    ++ ": USED: " ++ fmtInt used ++ " LIMIT: " ++ fmtInt limit
    ++ " PERCENT_USED: " ++ fmtFloat 6 3 percent

/-- The message of the memory branch of `examineResourceQuotasForNamespace`. -/
def memoryMessage (ns : String) (threshold : F64) (used limit : Int) (percent : F64) : String :=
  "memory for " ++ ns ++ " namespace has reached threshold of " ++ fmtFloat 4 2 threshold
    ++ ": USED: " ++ fmtInt used ++ " LIMIT: " ++ fmtInt limit
    ++ " PERCENT_USED: " ++ fmtFloat 6 3 percent

/-- The message `examineResourceQuotasForNamespace` returns when the listing of
the quotas fails. -/
def listingMessage (ns : String) (err : GoError) : String :=
  "error occurred listing resource quotas for " ++ ns ++ " namespace " ++ err.Error

/-- Go's `float64(used) / float64(hard)` on two milli-values. -/
def percentUsed (used hard : Int) : F64 :=
  F64.div (F64.ofInt used) (F64.ofInt hard)

/-- One iteration of the quota loop of `examineResourceQuotasForNamespace`:
`errors` is the slice before the iteration, the result the slice after it. -/
def examineQuota (ns : String) (threshold : F64) (errors : List String)
    (rq : ResourceQuota) : List String :=
  let limits := rq.Status.Hard
  let status := rq.Status.Used
  let percentCPUUsed := percentUsed status.CpuMilliValue limits.CpuMilliValue
  let percentMemoryUsed := percentUsed status.MemoryMilliValue limits.MemoryMilliValue
  let errors :=
    if F64.ge percentCPUUsed threshold then
      errors ++ [cpuMessage ns threshold status.CpuMilliValue limits.CpuMilliValue percentCPUUsed]
    else errors
  let errors :=
    if F64.ge percentMemoryUsed threshold then
      errors ++ [memoryMessage ns threshold status.MemoryMilliValue limits.MemoryMilliValue
        percentMemoryUsed]
    else errors
  errors

/-- Function `examineResourceQuotasForNamespace`. -/
def examineResourceQuotasForNamespace (ns : String) (threshold : F64)
    (client : Clientset) : List String :=
  match client.ResourceQuotas ns with
  | .error err => [listingMessage ns err]
  | .ok quotas => quotas.foldl (examineQuota ns threshold) []

/-- What the namespace loop does to a namespace, for the record of a pass:
`filter i ns` is the call `shouldSkipNamespace(ns, cfg)` of iteration `i`,
`scan i ns` the call `examineResourceQuotasForNamespace(ctx, ns, ...)`. -/
inductive Call where
  | filter (i : Nat) (ns : String) : Call
  | scan (i : Nat) (ns : String) : Call
  deriving DecidableEq, Repr

/-- The two results of `runResourceQuotaCheck` (`errors = none` is the `nil`
slice) and the calls the pass made, in order. -/
structure RunResult where
  errors : Option (List String)
  err : Option GoError
  calls : List Call
  deriving DecidableEq, Repr

/-- The namespace loop of `runResourceQuotaCheck` from iteration `i` on, over
the namespaces left, with the slice `errors` and the calls made so far. -/
def namespaceLoop (ctx : Context) (cfg : CheckConfig) (client : Clientset) :
    Nat → List String → List String → List Call → RunResult
  | _, [], errors, calls => { errors := some errors, err := none, calls := calls }
  | i, ns :: rest, errors, calls =>
    match ctx.Err i with
    | some e => { errors := none, err := some e, calls := calls }
    | none =>
      if shouldSkipNamespace ns cfg then
        namespaceLoop ctx cfg client (i + 1) rest errors (calls ++ [Call.filter i ns])
      else
        let quotaErrors := examineResourceQuotasForNamespace ns cfg.Threshold client
        namespaceLoop ctx cfg client (i + 1) rest (errors ++ quotaErrors)
          (calls ++ [Call.filter i ns, Call.scan i ns])

/-- Function `runResourceQuotaCheck`. -/
def runResourceQuotaCheck (ctx : Context) (cfg : CheckConfig) (client : Clientset) :
    RunResult :=
  match client.Namespaces with
  | .error err =>
    { errors := none
      err := some (GoError.wrap "error occurred listing namespaces from the cluster: " err)
      calls := [] }
  | .ok allNamespaces => namespaceLoop ctx cfg client 0 allNamespaces [] []

/-- The calls a pass without cancellation makes from iteration `i` on. -/
def passCalls (cfg : CheckConfig) : Nat → List String → List Call
  | _, [] => []
  | i, ns :: rest =>
    (if shouldSkipNamespace ns cfg then [Call.filter i ns]
      else [Call.filter i ns, Call.scan i ns]) ++ passCalls cfg (i + 1) rest

/-! ## main.go -/

/-- The one report of an invocation: `checkclient.ReportSuccess()` or
`checkclient.ReportFailure(msgs)`. -/
inductive Report where
  | success : Report
  | failure (msgs : List String) : Report
  deriving DecidableEq, Repr

/-- Function `reportFailureAndExit`, as the report it sends. -/
def reportFailureAndExit (err : GoError) : Report :=
  Report.failure [err.Error]

/-- Function `handleRunError`, as the report it sends. -/
def handleRunError (err : GoError) : Report :=
  if err = GoError.deadlineExceeded then
    reportFailureAndExit (GoError.other "Check took too long and timed out.")
  else reportFailureAndExit err

/-- The part of `main` from the call of `runResourceQuotaCheck` on, as the
report it sends. -/
def mainReport (ctx : Context) (cfg : CheckConfig) (client : Clientset) : Report :=
  let r := runResourceQuotaCheck ctx cfg client
  match r.err with
  | some err => handleRunError err
  | none =>
    let rqErrors := r.errors.getD []
    if rqErrors.length ≠ 0 then Report.failure rqErrors else Report.success

/-! ## Concrete inputs -/

/-- The quota of scenario A: CPU 950 of 1000, memory 500 of 1000. -/
def quotaA : ResourceQuota :=
  { Status := { Hard := { cpu := some 1000, memory := some 1000 }
                Used := { cpu := some 950, memory := some 500 } } }

/-- A configuration with empty lists and the default threshold. -/
def plainConfig : CheckConfig :=
  { KubeConfigFile := ""
    Blacklist := []
    Whitelist := []
    Threshold := defaultThreshold
    CheckTimeLimit := 295 * Second
    Debug := false }

/-- A cluster of three namespaces, each holding the quota of scenario A. -/
def threeNamespaces : Clientset :=
  { Namespaces := .ok ["ns1", "ns2", "ns3"]
    ResourceQuotas := fun _ => .ok [quotaA] }

/-- The cluster `threeNamespaces` with the quota listing of `ns2` failing. -/
def secondListingFails : Clientset :=
  { Namespaces := .ok ["ns1", "ns2", "ns3"]
    ResourceQuotas := fun ns =>
      if ns = "ns2" then .error (GoError.other "the server is unavailable")
      else .ok [quotaA] }

/-- A quota with no hard limit for CPU and 500 milli-CPU used; memory as in
scenario A. -/
def quotaNoCpuLimit : ResourceQuota :=
  { Status := { Hard := { cpu := none, memory := some 1000 }
                Used := { cpu := some 500, memory := some 500 } } }

/-- A cluster whose namespaces each hold the quota `quotaNoCpuLimit`. -/
def noCpuLimitCluster : Clientset :=
  { Namespaces := .ok ["ns1"]
    ResourceQuotas := fun _ => .ok [quotaNoCpuLimit] }

/-- A quota whose status holds the four entries, in milli-units: CPU used and
hard, memory used and hard. -/
def quotaWith (cpuUsed cpuHard memoryUsed memoryHard : Int) : ResourceQuota :=
  { Status := { Hard := { cpu := some cpuHard, memory := some memoryHard }
                Used := { cpu := some cpuUsed, memory := some memoryUsed } } }

/-- The threshold `0.5`, a value of binary64. -/
def halfThreshold : F64 := F64.ofRatio false 1 2

/-- A cluster whose quota has its CPU usage exactly at one half and its memory
usage at 990 of 1000. -/
def atThresholdCluster : Clientset :=
  { Namespaces := .ok ["ns1"]
    ResourceQuotas := fun _ => .ok [quotaWith 500 1000 990 1000] }

/-- A cluster whose quota has a CPU hard limit above `2 ^ 53`, which `float64`
rounds up, and a CPU usage just above nine tenths of it; no memory is used. -/
def roundedLimitCluster : Clientset :=
  { Namespaces := .ok ["ns1"]
    ResourceQuotas := fun _ => .ok [quotaWith 8106479329266896 9007199254740995 0 1000] }

/-- A context that never fires. -/
def neverDone : Context := { Err := fun _ => none }

/-- A context first seen fired, with the error `e`, at iteration `i`. -/
def firedAt (i : Nat) (e : GoError) : Context :=
  { Err := fun k => if k < i then none else some e }

/-- Go's zero `time.Time{}`: January 1 of year 1, 00:00:00 UTC. -/
def Time.zeroValue : Time := -62135596800 * Second

/-- An environment with no variable set, at 2026-01-01T00:00:00Z, in which
`GetDeadline` fails and returns the zero time beside its error. -/
def worldNoDeadline : World :=
  { Getenv := fun _ => ""
    ParseBool := fun _ => .error (GoError.other "invalid syntax")
    ParseFloat := fun _ => .error (GoError.other "invalid syntax")
    GetDeadline := (Time.zeroValue,
      some (GoError.other "fetched KH_CHECK_RUN_DEADLINE environment variable but it was blank"))
    Now := 1767225600 * Second }

/-- The environment `worldNoDeadline` with another time beside the error of
`GetDeadline`: one minute after `Now`. -/
def worldNoDeadlineLater : World :=
  { worldNoDeadline with
    GetDeadline := (1767225660 * Second,
      some (GoError.other "fetched KH_CHECK_RUN_DEADLINE environment variable but it was blank")) }

/-- An environment with `THRESHOLD=NaN`, which `strconv.ParseFloat` accepts. -/
def worldThresholdNaN : World :=
  { Getenv := fun name => if name = "THRESHOLD" then "NaN" else ""
    ParseBool := fun _ => .error (GoError.other "invalid syntax")
    ParseFloat := fun s =>
      if s = "NaN" then .ok F64.nan else .error (GoError.other "invalid syntax")
    GetDeadline := (1767225660 * Second, none)
    Now := 1767225600 * Second }

set_option exponentiation.threshold 4000

/-! ## Lemmas on binary64 -/

section Binary64

open F64

theorem bitLenAux_bounds (fuel : Nat) : ∀ n : Nat, n ≤ fuel → 0 < n →
    2 ^ (bitLenAux fuel n - 1) ≤ n ∧ n < 2 ^ bitLenAux fuel n ∧ 0 < bitLenAux fuel n := by
  induction fuel with
  | zero => intro n h1 h2; omega
  | succ f ih =>
    intro n hle hpos
    have hn : n ≠ 0 := by omega
    simp only [bitLenAux, hn, if_false]
    by_cases h1 : n / 2 = 0
    · have hn1 : n = 1 := by omega
      subst hn1
      cases f with
      | zero => simp [bitLenAux]
      | succ f' => simp [bitLenAux]
    · have hhalf : n / 2 ≤ f := by omega
      obtain ⟨ha, hb, hc⟩ := ih (n / 2) hhalf (by omega)
      refine ⟨?_, ?_, by omega⟩
      · simp only [Nat.add_sub_cancel]
        have : 2 ^ bitLenAux f (n / 2) = 2 ^ (bitLenAux f (n / 2) - 1) * 2 := by
          rw [← Nat.pow_succ]; congr 1; omega
        rw [this]; omega
      · rw [Nat.pow_succ]; omega

theorem bitLen_bounds (n : Nat) (h : 0 < n) :
    2 ^ (bitLen n - 1) ≤ n ∧ n < 2 ^ bitLen n ∧ 0 < bitLen n :=
  bitLenAux_bounds n n (le_refl n) h

theorem bitLen_one : bitLen 1 = 1 := by decide

/-- For an integer numerator the unit of the last kept digit does not exceed
the scaled numerator, and the exponent is in the normal range. -/
theorem roundExp_int (p : Nat) (hp : 0 < p) :
    2 ^ roundExp p 1 ≤ p * 2 ^ 1074 ∧ 1021 ≤ roundExp p 1 := by
  obtain ⟨h1, _, h3⟩ := bitLen_bounds p hp
  have hk : floorLog p 1 ≤ bitLen p + 1073 ∧ bitLen p + 1072 ≤ floorLog p 1 := by
    unfold floorLog
    rw [bitLen_one]
    dsimp only
    split <;> omega
  constructor
  · unfold roundExp
    calc 2 ^ (floorLog p 1 - 52) ≤ 2 ^ (bitLen p - 1 + 1074) :=
          Nat.pow_le_pow_right (by decide) (by omega)
      _ = 2 ^ (bitLen p - 1) * 2 ^ 1074 := Nat.pow_add _ _ _
      _ ≤ p * 2 ^ 1074 := Nat.mul_le_mul_right _ h1
  · unfold roundExp; omega

theorem roundMant_ge (p q : Nat) :
    p * 2 ^ 1074 / (q * 2 ^ roundExp p q) ≤ roundMant p q := by
  unfold roundMant
  dsimp only
  split <;> omega

theorem roundMant_le (p q : Nat) :
    roundMant p q ≤ p * 2 ^ 1074 / (q * 2 ^ roundExp p q) + 1 := by
  unfold roundMant
  dsimp only
  split <;> omega

theorem roundMant_int_pos (p : Nat) (hp : 0 < p) : 0 < roundMant p 1 := by
  have h := (roundExp_int p hp).1
  have h2 := roundMant_ge p 1
  rw [Nat.one_mul] at h2
  have : 0 < p * 2 ^ 1074 / 2 ^ roundExp p 1 :=
    Nat.div_pos h (Nat.pow_pos (by decide))
  omega

theorem roundMag_some (p q m ex : Nat) (h : roundMag p q = some (m, ex)) :
    roundMant p q * 2 ^ roundExp p q < 2 ^ 2098 ∧
    ((roundMant p q = 2 ^ 53 ∧ m = 2 ^ 52 ∧ ex = roundExp p q + 1) ∨
      (roundMant p q ≠ 2 ^ 53 ∧ m = roundMant p q ∧ ex = roundExp p q)) := by
  unfold roundMag at h
  by_cases h1 : 2 ^ 2098 ≤ roundMant p q * 2 ^ roundExp p q
  · rw [if_pos h1] at h; cases h
  · rw [if_neg h1] at h
    refine ⟨Nat.lt_of_not_le h1, ?_⟩
    by_cases h2 : roundMant p q = 2 ^ 53
    · rw [if_pos h2] at h
      injection h with h
      injection h with ha hb
      exact Or.inl ⟨h2, ha.symm, hb.symm⟩
    · rw [if_neg h2] at h
      injection h with h
      injection h with ha hb
      exact Or.inr ⟨h2, ha.symm, hb.symm⟩

/-- The conversion of a non-zero integer is a non-zero finite value or an
infinity, of the integer's sign. -/
theorem ofInt_ne_zero (n : Int) (hn : n ≠ 0) :
    (∃ m ex, ofInt n = fin (decide (n < 0)) m ex ∧ m ≠ 0) ∨ ofInt n = inf (decide (n < 0)) := by
  have hp : 0 < n.natAbs := Int.natAbs_pos.2 hn
  have hm := roundMant_int_pos n.natAbs hp
  unfold ofInt ofRatio
  rw [if_neg (by omega)]
  cases h : roundMag n.natAbs 1 with
  | none => right; rfl
  | some r =>
    obtain ⟨m, ex⟩ := r
    left
    refine ⟨m, ex, rfl, ?_⟩
    rcases (roundMag_some _ _ _ _ h).2 with ⟨_, h2, _⟩ | ⟨_, h2, _⟩
    · rw [h2]; positivity
    · omega

theorem ofInt_zero : ofInt 0 = F64.zero := by decide

/-- Division by the zero an integer `0` converts to: NaN for `0 / 0`, otherwise
the infinity of the sign of the numerator. -/
theorem percentUsed_hard_zero (used : Int) :
    percentUsed used 0 = if used = 0 then nan else inf (decide (used < 0)) := by
  unfold percentUsed
  rw [ofInt_zero]
  by_cases hu : used = 0
  · subst hu
    rw [ofInt_zero]
    rfl
  · rw [if_neg hu]
    rcases ofInt_ne_zero used hu with ⟨m, ex, h, hm⟩ | h
    · rw [h]
      simp [F64.div, F64.zero, hm]
    · rw [h]
      simp [F64.div, F64.zero]

/-- A threshold above zero is reached by `+Inf` and by neither NaN nor `-Inf`. -/
theorem ge_special (t : F64) (ht : F64.lt F64.zero t = true) :
    F64.ge (inf false) t = true ∧ F64.ge nan t = false ∧ F64.ge (inf true) t = false := by
  cases t with
  | nan => simp [F64.lt, F64.zero] at ht
  | inf s => cases s <;> simp_all [F64.lt, F64.ge, F64.le, F64.zero]
  | fin s m ex => simp [F64.ge, F64.le]

/-- With a hard limit of zero the test of a dimension holds exactly for a
positive used value. -/
theorem ge_percentUsed_hard_zero (used : Int) (t : F64) (ht : F64.lt F64.zero t = true) :
    F64.ge (percentUsed used 0) t = decide (0 < used) := by
  obtain ⟨h1, h2, h3⟩ := ge_special t ht
  rw [percentUsed_hard_zero]
  by_cases hu : used = 0
  · simp [hu, h2]
  · rw [if_neg hu]
    by_cases hneg : used < 0
    · simp [hneg, h3]; omega
    · simp [hneg, h1]; omega

theorem roundExp_le (p q : Nat) (hp : 0 < p) (hq : 0 < q) :
    2 ^ roundExp p q ≤ p * 2 ^ 1074 := by
  obtain ⟨h1, _, _⟩ := bitLen_bounds p hp
  obtain ⟨_, _, h3⟩ := bitLen_bounds q hq
  have hk : floorLog p q ≤ bitLen p + 1073 := by
    unfold floorLog
    dsimp only
    split <;> omega
  unfold roundExp
  calc 2 ^ (floorLog p q - 52) ≤ 2 ^ (bitLen p - 1 + 1074) :=
        Nat.pow_le_pow_right (by decide) (by omega)
    _ = 2 ^ (bitLen p - 1) * 2 ^ 1074 := Nat.pow_add _ _ _
    _ ≤ p * 2 ^ 1074 := Nat.mul_le_mul_right _ h1

/-- The rounded magnitude is at most twice the exact one. -/
theorem roundMant_mul_le (p q : Nat) (hp : 0 < p) (hq : 0 < q) :
    roundMant p q * 2 ^ roundExp p q ≤ 2 * (p * 2 ^ 1074) := by
  have h1 := roundMant_le p q
  have h2 := roundExp_le p q hp hq
  have hpos : 0 < 2 ^ roundExp p q := Nat.pow_pos (by decide)
  have h3 : p * 2 ^ 1074 / (q * 2 ^ roundExp p q) * 2 ^ roundExp p q ≤ p * 2 ^ 1074 := by
    calc p * 2 ^ 1074 / (q * 2 ^ roundExp p q) * 2 ^ roundExp p q
        ≤ p * 2 ^ 1074 / 2 ^ roundExp p q * 2 ^ roundExp p q := by
          apply Nat.mul_le_mul_right
          apply Nat.div_le_div_left _ hpos
          exact Nat.le_mul_of_pos_left _ hq
      _ ≤ p * 2 ^ 1074 := Nat.div_mul_le_self _ _
  calc roundMant p q * 2 ^ roundExp p q
      ≤ (p * 2 ^ 1074 / (q * 2 ^ roundExp p q) + 1) * 2 ^ roundExp p q :=
        Nat.mul_le_mul_right _ h1
    _ = p * 2 ^ 1074 / (q * 2 ^ roundExp p q) * 2 ^ roundExp p q + 2 ^ roundExp p q := by
        rw [Nat.add_mul, Nat.one_mul]
    _ ≤ 2 * (p * 2 ^ 1074) := by omega

/-- No overflow below `2 ^ 1023`, and the result is at most twice the exact
magnitude. -/
theorem roundMag_isSome (p q : Nat) (hp : 0 < p) (hq : 0 < q) (hlt : p < 2 ^ 1023) :
    ∃ m ex, roundMag p q = some (m, ex) ∧ m * 2 ^ ex ≤ 2 * (p * 2 ^ 1074) := by
  have h := roundMant_mul_le p q hp hq
  have hb : 2 * (p * 2 ^ 1074) < 2 ^ 2098 := by
    have : (2 : Nat) ^ 2098 = 2 * (2 ^ 1023 * 2 ^ 1074) := by norm_num
    rw [this]
    have := Nat.mul_lt_mul_of_pos_right hlt (Nat.pow_pos (n := 1074) (by decide : 0 < 2))
    omega
  unfold roundMag
  rw [if_neg (by omega)]
  by_cases h2 : roundMant p q = 2 ^ 53
  · rw [if_pos h2]
    refine ⟨_, _, rfl, ?_⟩
    rw [h2] at h
    calc 2 ^ 52 * 2 ^ (roundExp p q + 1) = 2 ^ 53 * 2 ^ roundExp p q := by ring
      _ ≤ 2 * (p * 2 ^ 1074) := h
  · rw [if_neg h2]
    exact ⟨_, _, rfl, h⟩

/-- The conversion of an `int64` is finite, with the sign of the integer, zero
only for zero, at most twice the integer in magnitude and, for a non-zero
integer, with an exponent of the normal range. -/
theorem ofInt_int64 (n : Int) (hn : isInt64 n) :
    ∃ m ex, ofInt n = fin (decide (n < 0)) m ex ∧ (m = 0 ↔ n = 0) ∧
      m * 2 ^ ex ≤ 2 ^ 1139 ∧ (n ≠ 0 → 1021 ≤ ex) := by
  by_cases h0 : n = 0
  · subst h0
    exact ⟨0, 0, by decide, by simp, by positivity, by simp⟩
  · have hp : 0 < n.natAbs := Int.natAbs_pos.2 h0
    have hlt : n.natAbs < 2 ^ 64 := by
      unfold isInt64 at hn
      omega
    have hlt' : n.natAbs < 2 ^ 1023 :=
      lt_trans hlt (Nat.pow_lt_pow_right (by decide) (by decide))
    obtain ⟨m, ex, h, hle⟩ := roundMag_isSome n.natAbs 1 hp (by decide) hlt'
    have hm := roundMant_int_pos n.natAbs hp
    have hex := (roundExp_int n.natAbs hp).2
    refine ⟨m, ex, ?_, ?_, ?_, fun _ => ?_⟩
    · unfold ofInt ofRatio
      rw [if_neg (by omega), h]
    · rcases (roundMag_some _ _ _ _ h).2 with ⟨_, h2, _⟩ | ⟨_, h2, _⟩
      · rw [h2]; simp [h0]
      · rw [h2]; simp [h0]; omega
    · calc m * 2 ^ ex ≤ 2 * (n.natAbs * 2 ^ 1074) := hle
        _ ≤ 2 * (2 ^ 64 * 2 ^ 1074) :=
          Nat.mul_le_mul_left _ (Nat.mul_le_mul_right _ (le_of_lt hlt))
        _ = 2 ^ 1139 := by norm_num
    · rcases (roundMag_some _ _ _ _ h).2 with ⟨_, _, h3⟩ | ⟨_, _, h3⟩ <;> omega

/-- The quotient of two `int64` values with a positive divisor is a finite
binary64 value. -/
theorem percentUsed_finite (used hard : Int) (hu : isInt64 used) (hh : isInt64 hard)
    (hpos : 0 < hard) : ∃ s m ex, percentUsed used hard = fin s m ex := by
  obtain ⟨m1, e1, h1, hz1, hb1, hx1⟩ := ofInt_int64 used hu
  obtain ⟨m2, e2, h2, hz2, _, hx2⟩ := ofInt_int64 hard hh
  have hm2 : m2 ≠ 0 := fun h => by have := hz2.1 h; omega
  have he2 : 1021 ≤ e2 := hx2 (by omega)
  unfold percentUsed
  rw [h1, h2]
  simp only [F64.div, if_neg hm2]
  unfold ofRatio
  by_cases hp : m1 * 2 ^ (e1 - min e1 e2) = 0
  · rw [if_pos hp]; exact ⟨_, _, _, rfl⟩
  · rw [if_neg hp]
    have hm1 : m1 ≠ 0 := fun h => hp (by rw [h, Nat.zero_mul])
    have he1 : 1021 ≤ e1 := hx1 (fun h => hm1 (hz1.2 h))
    have hq : 0 < m2 * 2 ^ (e2 - min e1 e2) :=
      Nat.mul_pos (Nat.pos_of_ne_zero hm2) (Nat.pow_pos (by decide))
    have hsmall : m1 * 2 ^ (e1 - min e1 e2) < 2 ^ 1023 := by
      have hle : m1 * 2 ^ (e1 - min e1 e2) * 2 ^ 1021 ≤ 2 ^ 1139 := by
        calc m1 * 2 ^ (e1 - min e1 e2) * 2 ^ 1021
            = m1 * 2 ^ (e1 - min e1 e2 + 1021) := by rw [Nat.mul_assoc, ← Nat.pow_add]
          _ ≤ m1 * 2 ^ e1 :=
            Nat.mul_le_mul_left _ (Nat.pow_le_pow_right (by decide) (by omega))
          _ ≤ 2 ^ 1139 := hb1
      by_contra hcon
      have hge : 2 ^ 1023 * 2 ^ 1021 ≤ m1 * 2 ^ (e1 - min e1 e2) * 2 ^ 1021 :=
        Nat.mul_le_mul_right _ (Nat.le_of_not_lt hcon)
      have hnum : (2 : Nat) ^ 1139 < 2 ^ 1023 * 2 ^ 1021 := by norm_num
      omega
    obtain ⟨m, ex, h, _⟩ := roundMag_isSome _ _ (Nat.pos_of_ne_zero hp) hq hsmall
    rw [h]
    exact ⟨_, _, _, rfl⟩

/-- On values other than NaN, `<` is the negation of the converse `≤`. -/
theorem lt_eq_not_le (a b : F64) (ha : a ≠ nan) (hb : b ≠ nan) :
    F64.lt a b = !F64.le b a := by
  cases a with
  | nan => exact absurd rfl ha
  | inf s =>
    cases b with
    | nan => exact absurd rfl hb
    | inf t => cases s <;> cases t <;> rfl
    | fin t m ex => cases s <;> rfl
  | fin s m1 e1 =>
    cases b with
    | nan => exact absurd rfl hb
    | inf t => cases t <;> rfl
    | fin t m2 e2 =>
      cases s <;> cases t
      · show decide (m1 * 2 ^ e1 < m2 * 2 ^ e2) = !decide (m2 * 2 ^ e2 ≤ m1 * 2 ^ e1)
        rw [Bool.eq_iff_iff]; simp
      · rfl
      · show decide (¬ (m1 = 0 ∧ m2 = 0)) = !decide (m2 = 0 ∧ m1 = 0)
        rw [Bool.eq_iff_iff]; simp [and_comm]
      · show decide (m2 * 2 ^ e2 < m1 * 2 ^ e1) = !decide (m1 * 2 ^ e1 ≤ m2 * 2 ^ e2)
        rw [Bool.eq_iff_iff]; simp

theorem le_true_ne_nan (a b : F64) (h : F64.le a b = true) : a ≠ nan ∧ b ≠ nan := by
  cases a <;> cases b <;> simp_all [F64.le]

theorem lt_true_ne_nan (a b : F64) (h : F64.lt a b = true) : a ≠ nan ∧ b ≠ nan := by
  cases a <;> cases b <;> simp_all [F64.lt]

theorem ofRatio_99_100 : ofRatio false 99 100 = fin false 8917127262193582 1021 := by decide

theorem defaultThreshold_eq : defaultThreshold = fin false 8106479329266893 1021 := by decide

/-- The default threshold passes both range tests. -/
theorem defaultThreshold_in_range :
    F64.gt defaultThreshold (ofRatio false 99 100) = false ∧
    F64.le defaultThreshold F64.zero = false ∧
    F64.lt F64.zero defaultThreshold = true ∧
    F64.le defaultThreshold (ofRatio false 99 100) = true := by decide

/-- The threshold `parseConfig` stores, by the value `x` it starts from: the
default when `x <= 0` or `x > 0.99`, `x` itself when `0 < x <= 0.99`, and in
the interval `(0, 0.99]` whenever `x` is not NaN. -/
theorem normalizeThreshold_spec (x : F64) :
    (F64.le x F64.zero = true ∨ F64.gt x (ofRatio false 99 100) = true →
      normalizeThreshold x = defaultThreshold) ∧
    (F64.lt F64.zero x = true ∧ F64.le x (ofRatio false 99 100) = true →
      normalizeThreshold x = x) ∧
    (x ≠ nan → F64.lt F64.zero (normalizeThreshold x) = true ∧
      F64.le (normalizeThreshold x) (ofRatio false 99 100) = true) := by
  obtain ⟨d1, d2, d3, d4⟩ := defaultThreshold_in_range
  have h0 : F64.zero ≠ nan := fun h => F64.noConfusion h
  have h99 : ofRatio false 99 100 ≠ nan := by
    rw [ofRatio_99_100]; exact fun h => F64.noConfusion h
  refine ⟨?_, ?_, ?_⟩
  · intro h
    unfold normalizeThreshold
    by_cases hg : F64.gt x (ofRatio false 99 100) = true
    · simp [hg, d2]
    · rcases h with h | h
      · simp [hg, h]
      · exact absurd h hg
  · rintro ⟨hpos, hle⟩
    have hx := (lt_true_ne_nan _ _ hpos).2
    have hg : F64.gt x (ofRatio false 99 100) = false := by
      unfold F64.gt
      rw [lt_eq_not_le _ _ h99 hx, hle]; rfl
    have hl : F64.le x F64.zero = false := by
      have := lt_eq_not_le _ _ h0 hx
      rw [hpos] at this
      simpa using this.symm
    unfold normalizeThreshold
    simp [hg, hl]
  · intro hx
    unfold normalizeThreshold
    by_cases hg : F64.gt x (ofRatio false 99 100) = true
    · simp [hg, d2, d3, d4]
    · by_cases hl : F64.le x F64.zero = true
      · simp [hg, hl, d3, d4]
      · simp only [hg, hl, if_false, Bool.false_eq_true]
        constructor
        · rw [lt_eq_not_le _ _ h0 hx]
          simpa using hl
        · have := lt_eq_not_le _ _ h99 hx
          unfold F64.gt at hg
          rw [this] at hg
          simpa using hg

theorem mul_pow_lt (q b k n : Nat) (hq : q < 2 ^ b) (h : b + k = n) : q * 2 ^ k < 2 ^ n := by
  subst h
  rw [Nat.pow_add]
  exact Nat.mul_lt_mul_of_pos_right hq (Nat.pow_pos (by decide : 0 < 2))

theorem pow_le_mul_pow (q b k n : Nat) (hq : 2 ^ b ≤ q) (h : b + k = n) :
    2 ^ n ≤ q * 2 ^ k := by
  subst h
  rw [Nat.pow_add]
  exact Nat.mul_le_mul_right _ hq

/-- The exponent `floorLog` finds is the integer part of the binary logarithm
of the scaled quotient when that quotient is at least `1`, and `0` below. -/
theorem floorLog_spec (p q : Nat) (hp : 0 < p) (hq : 0 < q) :
    (q ≤ p * 2 ^ 1074 →
      q * 2 ^ floorLog p q ≤ p * 2 ^ 1074 ∧ p * 2 ^ 1074 < q * 2 ^ (floorLog p q + 1)) ∧
    (p * 2 ^ 1074 < q → floorLog p q = 0) := by
  obtain ⟨pa, pb, pc⟩ := bitLen_bounds p hp
  obtain ⟨qa, qb, qc⟩ := bitLen_bounds q hq
  have hPlo : 2 ^ (bitLen p + 1073) ≤ p * 2 ^ 1074 :=
    pow_le_mul_pow p (bitLen p - 1) 1074 _ pa (by omega)
  have hPhi : p * 2 ^ 1074 < 2 ^ (bitLen p + 1074) := mul_pow_lt p (bitLen p) 1074 _ pb rfl
  have hself : ∀ k, q ≤ q * 2 ^ k := fun k =>
    Nat.le_mul_of_pos_right _ (Nat.pow_pos (by decide : 0 < 2))
  by_cases hab : bitLen q ≤ bitLen p + 1074
  · -- the estimate `k0` is off by at most one
    have hqhi : q * 2 ^ (bitLen p + 1074 - bitLen q) < 2 ^ (bitLen p + 1074) :=
      mul_pow_lt q (bitLen q) _ _ qb (by omega)
    have hqlo : 2 ^ (bitLen p + 1074) ≤ q * 2 ^ (bitLen p + 1074 - bitLen q + 1) :=
      pow_le_mul_pow q (bitLen q - 1) _ _ qa (by omega)
    by_cases hbr : q * 2 ^ (bitLen p + 1074 - bitLen q) ≤ p * 2 ^ 1074
    · have hfl : floorLog p q = bitLen p + 1074 - bitLen q := by
        unfold floorLog; dsimp only; rw [if_pos hbr]
      rw [hfl]
      refine ⟨fun _ => ⟨hbr, by omega⟩, fun hlt => ?_⟩
      have := hself (bitLen p + 1074 - bitLen q)
      omega
    · have hfl : floorLog p q = bitLen p + 1074 - bitLen q - 1 := by
        unfold floorLog; dsimp only; rw [if_neg hbr]
      rw [hfl]
      by_cases hk : bitLen p + 1074 - bitLen q = 0
      · rw [hk] at hbr
        simp only [Nat.pow_zero, Nat.mul_one] at hbr
        exact ⟨fun h => absurd h hbr, fun _ => by omega⟩
      · have hsucc : bitLen p + 1074 - bitLen q - 1 + 1 = bitLen p + 1074 - bitLen q := by
          omega
        have hlow : q * 2 ^ (bitLen p + 1074 - bitLen q - 1) < 2 ^ (bitLen p + 1073) :=
          mul_pow_lt q (bitLen q) _ _ qb (by omega)
        refine ⟨fun _ => ⟨by omega, by rw [hsucc]; omega⟩, fun _ => ?_⟩
        have := hself (bitLen p + 1074 - bitLen q - 1)
        omega
  · -- the quotient is below the smallest subnormal number
    have hlt : p * 2 ^ 1074 < q := by
      have : 2 ^ (bitLen p + 1074) ≤ 2 ^ (bitLen q - 1) :=
        Nat.pow_le_pow_right (by decide) (by omega)
      omega
    have hfl : floorLog p q = 0 := by
      unfold floorLog; dsimp only
      split <;> omega
    exact ⟨fun h => by omega, fun _ => hfl⟩

/-- The rounded integer is a nearest one: its distance to the exact quotient
is at most half a unit of the last digit, and on a tie it is even. -/
theorem roundMant_nearest (p q : Nat) (hq : 0 < q) :
    2 * (roundMant p q * (q * 2 ^ roundExp p q)) ≤ 2 * (p * 2 ^ 1074) + q * 2 ^ roundExp p q ∧
    2 * (p * 2 ^ 1074) ≤ 2 * (roundMant p q * (q * 2 ^ roundExp p q)) + q * 2 ^ roundExp p q ∧
    ((2 * (roundMant p q * (q * 2 ^ roundExp p q)) = 2 * (p * 2 ^ 1074) + q * 2 ^ roundExp p q ∨
      2 * (p * 2 ^ 1074) = 2 * (roundMant p q * (q * 2 ^ roundExp p q)) + q * 2 ^ roundExp p q) →
      roundMant p q % 2 = 0) := by
  have hden : 0 < q * 2 ^ roundExp p q := Nat.mul_pos hq (Nat.pow_pos (by decide))
  have hdm := Nat.div_add_mod (p * 2 ^ 1074) (q * 2 ^ roundExp p q)
  have hmod := Nat.mod_lt (p * 2 ^ 1074) hden
  rw [Nat.mul_comm] at hdm
  unfold roundMant
  dsimp only
  generalize q * 2 ^ roundExp p q = den at *
  generalize p * 2 ^ 1074 = P at *
  generalize hm0 : P / den = m0 at *
  generalize hr : P % den = r at *
  split
  · rename_i hup
    rw [Nat.add_mul, Nat.one_mul]
    rcases hup with hup | ⟨hup, hodd⟩
    · refine ⟨by omega, by omega, fun h => ?_⟩
      rcases h with h | h <;> omega
    · refine ⟨by omega, by omega, fun _ => by omega⟩
  · rename_i hup
    have h1 : ¬ den < 2 * r := fun h => hup (Or.inl h)
    have h2 : 2 * r = den → ¬ m0 % 2 = 1 := fun h hodd => hup (Or.inr ⟨h, hodd⟩)
    refine ⟨by omega, by omega, fun h => ?_⟩
    rcases h with h | h
    · have : r = 0 := by omega
      omega
    · have : 2 * r = den := by omega
      have := h2 this
      omega

/-- In the normal range the rounded integer has 53 binary digits, up to the
carry; in the subnormal range it has at most 52, up to the carry. -/
theorem roundMant_range (p q : Nat) (hp : 0 < p) (hq : 0 < q) :
    roundMant p q ≤ 2 ^ 53 ∧ (0 < roundExp p q → 2 ^ 52 ≤ roundMant p q) := by
  obtain ⟨hA, hB⟩ := floorLog_spec p q hp hq
  have hden : 0 < q * 2 ^ roundExp p q := Nat.mul_pos hq (Nat.pow_pos (by decide))
  have hge := roundMant_ge p q
  have hle := roundMant_le p q
  constructor
  · -- the quotient is below `2 ^ 53` units
    have hlt : p * 2 ^ 1074 < q * 2 ^ roundExp p q * 2 ^ 53 := by
      by_cases hqp : q ≤ p * 2 ^ 1074
      · have h1 := (hA hqp).2
        have h2 : q * 2 ^ (floorLog p q + 1) ≤ q * 2 ^ roundExp p q * 2 ^ 53 := by
          rw [Nat.mul_assoc, ← Nat.pow_add]
          exact Nat.mul_le_mul_left _ (Nat.pow_le_pow_right (by decide)
            (by unfold roundExp; omega))
        omega
      · have h1 : q ≤ q * 2 ^ roundExp p q * 2 ^ 53 := by
          rw [Nat.mul_assoc]
          exact Nat.le_mul_of_pos_right _ (Nat.mul_pos (Nat.pow_pos (by decide))
            (Nat.pow_pos (by decide)))
        omega
    have : p * 2 ^ 1074 / (q * 2 ^ roundExp p q) < 2 ^ 53 :=
      (Nat.div_lt_iff_lt_mul hden).2 (by rw [Nat.mul_comm (2 ^ 53)]; exact hlt)
    omega
  · intro hex
    have hfl : floorLog p q = roundExp p q + 52 := by unfold roundExp at hex ⊢; omega
    have hqp : q ≤ p * 2 ^ 1074 := by
      by_contra hcon
      have := hB (by omega)
      omega
    have h1 := (hA hqp).1
    rw [hfl, Nat.pow_add, ← Nat.mul_assoc] at h1
    have : 2 ^ 52 ≤ p * 2 ^ 1074 / (q * 2 ^ roundExp p q) :=
      (Nat.le_div_iff_mul_le hden).2 (by rw [Nat.mul_comm]; exact h1)
    omega

/-- The magnitude `roundMag` returns is the rounded integer at its exponent. -/
theorem roundMag_value (p q m ex : Nat) (h : roundMag p q = some (m, ex)) :
    m * 2 ^ ex = roundMant p q * 2 ^ roundExp p q := by
  rcases (roundMag_some p q m ex h).2 with ⟨h1, h2, h3⟩ | ⟨_, h2, h3⟩
  · rw [h1, h2, h3]; ring
  · rw [h2, h3]

/-- Rounding does not fall below a binary64 value that the exact quotient
reaches: from `t ≤ p / q` follows `t ≤ round (p / q)`. -/
theorem le_ofRatio_of_le (p q mt et : Nat) (hp : 0 < p) (hq : 0 < q) (hmt : mt < 2 ^ 53)
    (h : mt * 2 ^ et * q ≤ p * 2 ^ 1074) :
    F64.le (fin false mt et) (ofRatio false p q) = true := by
  have hden : 0 < q * 2 ^ roundExp p q := Nat.mul_pos hq (Nat.pow_pos (by decide))
  have hkey : mt * 2 ^ et ≤ roundMant p q * 2 ^ roundExp p q := by
    have hge := roundMant_ge p q
    by_cases hc : roundExp p q ≤ et
    · have hsplit : mt * 2 ^ et = mt * 2 ^ (et - roundExp p q) * 2 ^ roundExp p q := by
        have hsum : et - roundExp p q + roundExp p q = et := by omega
        rw [Nat.mul_assoc, ← Nat.pow_add, hsum]
      have h1 : mt * 2 ^ (et - roundExp p q) * (q * 2 ^ roundExp p q) ≤ p * 2 ^ 1074 := by
        calc mt * 2 ^ (et - roundExp p q) * (q * 2 ^ roundExp p q)
            = mt * 2 ^ (et - roundExp p q) * 2 ^ roundExp p q * q := by ring
          _ = mt * 2 ^ et * q := by rw [← hsplit]
          _ ≤ p * 2 ^ 1074 := h
      have h2 : mt * 2 ^ (et - roundExp p q) ≤ p * 2 ^ 1074 / (q * 2 ^ roundExp p q) :=
        (Nat.le_div_iff_mul_le hden).2 h1
      rw [hsplit]
      exact Nat.mul_le_mul_right _ (le_trans h2 hge)
    · have hnorm := (roundMant_range p q hp hq).2 (by omega)
      calc mt * 2 ^ et ≤ 2 ^ 53 * 2 ^ et := Nat.mul_le_mul_right _ (le_of_lt hmt)
        _ = 2 ^ 52 * 2 ^ (et + 1) := by ring
        _ ≤ 2 ^ 52 * 2 ^ roundExp p q :=
          Nat.mul_le_mul_left _ (Nat.pow_le_pow_right (by decide) (by omega))
        _ ≤ roundMant p q * 2 ^ roundExp p q := Nat.mul_le_mul_right _ hnorm
  unfold ofRatio
  rw [if_neg (by omega)]
  cases hr : roundMag p q with
  | none => rfl
  | some r =>
    obtain ⟨m, ex⟩ := r
    show decide (mt * 2 ^ et ≤ m * 2 ^ ex) = true
    rw [roundMag_value p q m ex hr]
    exact decide_eq_true hkey

/-- An integer below `2 ^ 53` in magnitude converts without rounding. -/
theorem ofInt_exact (n : Int) (hn : n.natAbs < 2 ^ 53) :
    ∃ m ex, ofInt n = fin (decide (n < 0)) m ex ∧ m * 2 ^ ex = n.natAbs * 2 ^ 1074 ∧
      (n ≠ 0 → 1021 ≤ ex) := by
  by_cases h0 : n = 0
  · subst h0
    exact ⟨0, 0, by decide, by simp, by simp⟩
  · have hp : 0 < n.natAbs := Int.natAbs_pos.2 h0
    obtain ⟨pa, _, _⟩ := bitLen_bounds n.natAbs hp
    have hbl : bitLen n.natAbs ≤ 53 := by
      by_contra hcon
      have : 2 ^ 53 ≤ 2 ^ (bitLen n.natAbs - 1) :=
        Nat.pow_le_pow_right (by decide) (by omega)
      omega
    have hfl : floorLog n.natAbs 1 ≤ bitLen n.natAbs + 1073 := by
      unfold floorLog
      rw [bitLen_one]
      dsimp only
      split <;> omega
    have hE : roundExp n.natAbs 1 ≤ 1074 := by unfold roundExp; omega
    have hP : n.natAbs * 2 ^ 1074 =
        n.natAbs * 2 ^ (1074 - roundExp n.natAbs 1) * 2 ^ roundExp n.natAbs 1 := by
      have hsum : 1074 - roundExp n.natAbs 1 + roundExp n.natAbs 1 = 1074 := by omega
      rw [Nat.mul_assoc, ← Nat.pow_add, hsum]
    have hpos : 0 < 2 ^ roundExp n.natAbs 1 := Nat.pow_pos (by decide)
    have hM : roundMant n.natAbs 1 * 2 ^ roundExp n.natAbs 1 = n.natAbs * 2 ^ 1074 := by
      have hmod : n.natAbs * 2 ^ 1074 % (1 * 2 ^ roundExp n.natAbs 1) = 0 := by
        rw [Nat.one_mul, hP]; exact Nat.mul_mod_left _ _
      have hdiv : n.natAbs * 2 ^ 1074 / (1 * 2 ^ roundExp n.natAbs 1) =
          n.natAbs * 2 ^ (1074 - roundExp n.natAbs 1) := by
        rw [Nat.one_mul]
        conv_lhs => rw [hP]
        exact Nat.mul_div_cancel _ hpos
      have hrm : roundMant n.natAbs 1 = n.natAbs * 2 ^ (1074 - roundExp n.natAbs 1) := by
        unfold roundMant
        dsimp only
        rw [hmod, hdiv, if_neg]
        rintro (hlt | ⟨heq, _⟩)
        · omega
        · omega
      rw [hrm]; exact hP.symm
    have hlt' : n.natAbs < 2 ^ 1023 :=
      lt_trans hn (Nat.pow_lt_pow_right (by decide) (by decide))
    obtain ⟨m, ex, h, _⟩ := roundMag_isSome n.natAbs 1 hp (by decide) hlt'
    have hex := (roundExp_int n.natAbs hp).2
    refine ⟨m, ex, ?_, ?_, fun _ => ?_⟩
    · unfold ofInt ofRatio
      rw [if_neg (by omega), h]
    · rw [roundMag_value _ _ _ _ h, hM]
    · rcases (roundMag_some _ _ _ _ h).2 with ⟨_, _, h3⟩ | ⟨_, _, h3⟩ <;> omega

/-- Where both milli-values convert without rounding, a threshold that the
exact quotient `used / hard` reaches is reached by the computed quotient: the
test never misses a quota whose usage is at the threshold or above. -/
theorem ge_percentUsed_of_exact (used hard mt et : Nat) (hu : used < 2 ^ 53)
    (hh : hard < 2 ^ 53) (hpos : 0 < hard) (hmt : mt < 2 ^ 53)
    (h : mt * 2 ^ et * hard ≤ used * 2 ^ 1074) :
    F64.ge (percentUsed (used : Int) (hard : Int)) (fin false mt et) = true := by
  obtain ⟨m1, e1, h1, hv1, _⟩ := ofInt_exact (used : Int) (by simpa using hu)
  obtain ⟨m2, e2, h2, hv2, _⟩ := ofInt_exact (hard : Int) (by simpa using hh)
  simp only [Int.natAbs_ofNat] at hv1 hv2
  have hs1 : decide ((used : Int) < 0) = false := by simp
  have hs2 : decide ((hard : Int) < 0) = false := by simp
  rw [hs1] at h1
  rw [hs2] at h2
  have h2pos : ∀ k : Nat, 0 < 2 ^ k := fun k => Nat.pow_pos (by decide)
  have hm2 : m2 ≠ 0 := by
    intro hz
    rw [hz, Nat.zero_mul] at hv2
    have := Nat.mul_pos hpos (h2pos 1074)
    omega
  unfold F64.ge percentUsed
  rw [h1, h2]
  simp only [F64.div, if_neg hm2, Bool.xor_false]
  by_cases hm1 : m1 = 0
  · -- `used = 0`, so the threshold is zero
    have hu0 : used = 0 := by
      rw [hm1, Nat.zero_mul] at hv1
      rcases Nat.mul_eq_zero.1 hv1.symm with h | h
      · exact h
      · have := h2pos 1074; omega
    have hmt0 : mt = 0 := by
      rw [hu0, Nat.zero_mul] at h
      have h' := Nat.le_zero.1 h
      rcases Nat.mul_eq_zero.1 h' with h | h
      · rcases Nat.mul_eq_zero.1 h with h | h
        · exact h
        · have := h2pos et; omega
      · omega
    rw [hm1, hmt0]
    simp [ofRatio, F64.le]
  · have hlo1 : e1 - min e1 e2 + min e1 e2 = e1 := by omega
    have hlo2 : e2 - min e1 e2 + min e1 e2 = e2 := by omega
    have hp : 0 < m1 * 2 ^ (e1 - min e1 e2) :=
      Nat.mul_pos (Nat.pos_of_ne_zero hm1) (h2pos _)
    have hq : 0 < m2 * 2 ^ (e2 - min e1 e2) :=
      Nat.mul_pos (Nat.pos_of_ne_zero hm2) (h2pos _)
    apply le_ofRatio_of_le _ _ mt et hp hq hmt
    -- cancel the common power of two
    apply Nat.le_of_mul_le_mul_right _ (h2pos (min e1 e2))
    calc mt * 2 ^ et * (m2 * 2 ^ (e2 - min e1 e2)) * 2 ^ min e1 e2
        = mt * 2 ^ et * (m2 * (2 ^ (e2 - min e1 e2) * 2 ^ min e1 e2)) := by ring
      _ = mt * 2 ^ et * (m2 * 2 ^ e2) := by rw [← Nat.pow_add, hlo2]
      _ = mt * 2 ^ et * hard * 2 ^ 1074 := by rw [hv2]; ring
      _ ≤ used * 2 ^ 1074 * 2 ^ 1074 := Nat.mul_le_mul_right _ h
      _ = m1 * 2 ^ e1 * 2 ^ 1074 := by rw [hv1]
      _ = m1 * (2 ^ (e1 - min e1 e2) * 2 ^ min e1 e2) * 2 ^ 1074 := by
          rw [← Nat.pow_add, hlo1]
      _ = m1 * 2 ^ (e1 - min e1 e2) * 2 ^ 1074 * 2 ^ min e1 e2 := by ring

/-- Where both milli-values convert without rounding, a threshold that the
computed quotient reaches is reached by the exact quotient `used / hard` up to
one rounding: `t * (1 - 2 ^ (-53)) ≤ used / hard`. -/
theorem exact_of_ge_percentUsed (used hard mt et : Nat) (hu : used < 2 ^ 53)
    (hh : hard < 2 ^ 53) (hpos : 0 < hard)
    (h : F64.ge (percentUsed (used : Int) (hard : Int)) (fin false mt et) = true) :
    mt * 2 ^ et * hard * (2 ^ 53 - 1) ≤ used * 2 ^ 1074 * 2 ^ 53 := by
  obtain ⟨m1, e1, h1, hv1, hx1⟩ := ofInt_exact (used : Int) (by simpa using hu)
  obtain ⟨m2, e2, h2, hv2, hx2⟩ := ofInt_exact (hard : Int) (by simpa using hh)
  simp only [Int.natAbs_ofNat] at hv1 hv2
  have hs1 : decide ((used : Int) < 0) = false := by simp
  have hs2 : decide ((hard : Int) < 0) = false := by simp
  rw [hs1] at h1
  rw [hs2] at h2
  have h2pos : ∀ k : Nat, 0 < 2 ^ k := fun k => Nat.pow_pos (by decide)
  have hm2 : m2 ≠ 0 := by
    intro hz
    rw [hz, Nat.zero_mul] at hv2
    have := Nat.mul_pos hpos (h2pos 1074)
    omega
  have he2 : 1021 ≤ e2 := hx2 (by exact_mod_cast (Nat.pos_iff_ne_zero.1 hpos))
  unfold F64.ge percentUsed at h
  rw [h1, h2] at h
  simp only [F64.div, if_neg hm2, Bool.xor_false] at h
  by_cases hm1 : m1 = 0
  · -- the quotient is zero, so the threshold is zero
    rw [hm1] at h
    simp only [ofRatio, Nat.zero_mul, if_true, F64.le, Nat.le_zero, decide_eq_true_eq] at h
    rw [h]; simp
  · have hu0 : used ≠ 0 := by
      intro hz
      rw [hz, Nat.zero_mul] at hv1
      rcases Nat.mul_eq_zero.1 hv1 with h' | h'
      · exact hm1 h'
      · have := h2pos e1; omega
    have he1 : 1021 ≤ e1 := hx1 (by exact_mod_cast hu0)
    have hlo1 : e1 - min e1 e2 + min e1 e2 = e1 := by omega
    have hlo2 : e2 - min e1 e2 + min e1 e2 = e2 := by omega
    have hp : 0 < m1 * 2 ^ (e1 - min e1 e2) :=
      Nat.mul_pos (Nat.pos_of_ne_zero hm1) (h2pos _)
    have hq : 0 < m2 * 2 ^ (e2 - min e1 e2) :=
      Nat.mul_pos (Nat.pos_of_ne_zero hm2) (h2pos _)
    -- the two operands of the rounding, and what they stand for
    have hpv : m1 * 2 ^ (e1 - min e1 e2) * 2 ^ min e1 e2 = used * 2 ^ 1074 := by
      rw [Nat.mul_assoc, ← Nat.pow_add, hlo1, hv1]
    have hqv : m2 * 2 ^ (e2 - min e1 e2) * 2 ^ min e1 e2 = hard * 2 ^ 1074 := by
      rw [Nat.mul_assoc, ← Nat.pow_add, hlo2, hv2]
    generalize m1 * 2 ^ (e1 - min e1 e2) = p at *
    generalize m2 * 2 ^ (e2 - min e1 e2) = q at *
    have hlo : 1021 ≤ min e1 e2 := by omega
    have hpow : (2 : Nat) ^ 1021 ≤ 2 ^ min e1 e2 := Nat.pow_le_pow_right (by decide) hlo
    have hpsmall : p < 2 ^ 1023 := by
      by_contra hcon
      have hge : 2 ^ 1023 * 2 ^ 1021 ≤ p * 2 ^ min e1 e2 :=
        Nat.mul_le_mul (Nat.le_of_not_lt hcon) hpow
      have : used * 2 ^ 1074 < 2 ^ 53 * 2 ^ 1074 := Nat.mul_lt_mul_of_pos_right hu (h2pos _)
      have hnum : (2 : Nat) ^ 53 * 2 ^ 1074 ≤ 2 ^ 1023 * 2 ^ 1021 := by norm_num
      omega
    obtain ⟨m, ex, hr, _⟩ := roundMag_isSome p q hp hq hpsmall
    have hle : mt * 2 ^ et ≤ roundMant p q * 2 ^ roundExp p q := by
      unfold ofRatio at h
      rw [if_neg (by omega), hr] at h
      have h' : mt * 2 ^ et ≤ m * 2 ^ ex := of_decide_eq_true h
      rw [roundMag_value p q m ex hr] at h'
      exact h'
    -- the quotient is in the normal range
    have hqP : q * 2 ^ 53 ≤ p * 2 ^ 1074 := by
      apply Nat.le_of_mul_le_mul_right _ (h2pos (min e1 e2))
      have e1' : q * 2 ^ 53 * 2 ^ min e1 e2 = hard * 2 ^ 1074 * 2 ^ 53 := by
        rw [← hqv]; ring
      have e2' : p * 2 ^ 1074 * 2 ^ min e1 e2 = used * 2 ^ 1074 * 2 ^ 1074 := by
        rw [← hpv]; ring
      rw [e1', e2']
      have hone : 1 ≤ used := Nat.pos_of_ne_zero hu0
      calc hard * 2 ^ 1074 * 2 ^ 53 ≤ 2 ^ 53 * 2 ^ 1074 * 2 ^ 53 :=
            Nat.mul_le_mul_right _ (Nat.mul_le_mul_right _ (le_of_lt hh))
        _ ≤ 1 * 2 ^ 1074 * 2 ^ 1074 := by norm_num
        _ ≤ used * 2 ^ 1074 * 2 ^ 1074 :=
            Nat.mul_le_mul_right _ (Nat.mul_le_mul_right _ hone)
    have hEpos : 0 < roundExp p q := by
      have hqle : q ≤ p * 2 ^ 1074 :=
        le_trans (Nat.le_mul_of_pos_right _ (h2pos 53)) hqP
      have hfl := ((floorLog_spec p q hp hq).1 hqle).2
      by_contra hcon
      have hfl52 : floorLog p q + 1 ≤ 53 := by unfold roundExp at hcon; omega
      have : q * 2 ^ (floorLog p q + 1) ≤ q * 2 ^ 53 :=
        Nat.mul_le_mul_left _ (Nat.pow_le_pow_right (by decide) hfl52)
      omega
    have hnorm := (roundMant_range p q hp hq).2 hEpos
    have hnear := (roundMant_nearest p q hq).1
    -- `V` is the rounded quotient and `D` the unit of its last digit, times `q`
    have hD : q * 2 ^ roundExp p q * 2 ^ 52 ≤ roundMant p q * (q * 2 ^ roundExp p q) := by
      rw [Nat.mul_comm (q * 2 ^ roundExp p q)]
      exact Nat.mul_le_mul_right _ hnorm
    have hV : mt * 2 ^ et * q ≤ roundMant p q * (q * 2 ^ roundExp p q) := by
      calc mt * 2 ^ et * q ≤ roundMant p q * 2 ^ roundExp p q * q :=
            Nat.mul_le_mul_right _ hle
        _ = roundMant p q * (q * 2 ^ roundExp p q) := by ring
    have hbound : mt * 2 ^ et * q * (2 ^ 53 - 1) ≤ p * 2 ^ 1074 * 2 ^ 53 := by
      generalize roundMant p q * (q * 2 ^ roundExp p q) = V at hD hV hnear
      generalize q * 2 ^ roundExp p q = D at hD hnear
      generalize mt * 2 ^ et * q = T at hV ⊢
      generalize p * 2 ^ 1074 = P at hnear ⊢
      have : (2 : Nat) ^ 52 = 4503599627370496 := by norm_num
      have : (2 : Nat) ^ 53 = 9007199254740992 := by norm_num
      omega
    -- back from `p / q` to `used / hard`
    apply Nat.le_of_mul_le_mul_right _ (h2pos 1074)
    calc mt * 2 ^ et * hard * (2 ^ 53 - 1) * 2 ^ 1074
        = mt * 2 ^ et * (hard * 2 ^ 1074) * (2 ^ 53 - 1) := by ring
      _ = mt * 2 ^ et * q * (2 ^ 53 - 1) * 2 ^ min e1 e2 := by rw [← hqv]; ring
      _ ≤ p * 2 ^ 1074 * 2 ^ 53 * 2 ^ min e1 e2 := Nat.mul_le_mul_right _ hbound
      _ = p * 2 ^ min e1 e2 * 2 ^ 1074 * 2 ^ 53 := by ring
      _ = used * 2 ^ 1074 * 2 ^ 53 * 2 ^ 1074 := by rw [hpv]; ring

end Binary64

/-! ## Lemmas on the loops -/

theorem contains_iff_mem (value : String) (list : List String) :
    contains value list = true ↔ value ∈ list := by
  induction list with
  | nil => simp [contains]
  | cons item rest ih =>
    by_cases h : value = item
    · simp [contains, h]
    · simp [contains, h, ih]

theorem contains_eq_false_iff (value : String) (list : List String) :
    contains value list = false ↔ value ∉ list := by
  rw [← contains_iff_mem]; simp

/-- One iteration of the quota loop only appends to the slice. -/
theorem examineQuota_acc (ns : String) (threshold : F64) (errors : List String)
    (rq : ResourceQuota) :
    examineQuota ns threshold errors rq = errors ++ examineQuota ns threshold [] rq := by
  unfold examineQuota
  by_cases hc : F64.ge (percentUsed rq.Status.Used.CpuMilliValue
      rq.Status.Hard.CpuMilliValue) threshold = true <;>
    by_cases hm : F64.ge (percentUsed rq.Status.Used.MemoryMilliValue
      rq.Status.Hard.MemoryMilliValue) threshold = true <;>
    simp [hc, hm]

/-- What one iteration appends: the CPU message if the CPU test holds, then the
memory message if the memory test holds. -/
theorem examineQuota_nil (ns : String) (threshold : F64) (rq : ResourceQuota) :
    examineQuota ns threshold [] rq =
      (if F64.ge (percentUsed rq.Status.Used.CpuMilliValue rq.Status.Hard.CpuMilliValue)
          threshold = true then
        [cpuMessage ns threshold rq.Status.Used.CpuMilliValue rq.Status.Hard.CpuMilliValue
          (percentUsed rq.Status.Used.CpuMilliValue rq.Status.Hard.CpuMilliValue)]
      else []) ++
      (if F64.ge (percentUsed rq.Status.Used.MemoryMilliValue rq.Status.Hard.MemoryMilliValue)
          threshold = true then
        [memoryMessage ns threshold rq.Status.Used.MemoryMilliValue
          rq.Status.Hard.MemoryMilliValue
          (percentUsed rq.Status.Used.MemoryMilliValue rq.Status.Hard.MemoryMilliValue)]
      else []) := by
  unfold examineQuota
  by_cases hc : F64.ge (percentUsed rq.Status.Used.CpuMilliValue
      rq.Status.Hard.CpuMilliValue) threshold = true <;>
    by_cases hm : F64.ge (percentUsed rq.Status.Used.MemoryMilliValue
      rq.Status.Hard.MemoryMilliValue) threshold = true <;>
    simp [hc, hm]

/-- The quota loop is the concatenation of what each iteration appends. -/
theorem quotaLoop_eq_flatMap (ns : String) (threshold : F64) (quotas : List ResourceQuota)
    (errors : List String) :
    quotas.foldl (examineQuota ns threshold) errors =
      errors ++ quotas.flatMap (examineQuota ns threshold []) := by
  induction quotas generalizing errors with
  | nil => simp
  | cons rq rest ih =>
    rw [List.foldl_cons, ih, List.flatMap_cons, examineQuota_acc, List.append_assoc]

theorem passCalls_index (cfg : CheckConfig) (namespaces : List String) (i : Nat) (c : Call)
    (hc : c ∈ passCalls cfg i namespaces) :
    ∃ j ns, i ≤ j ∧ j < i + namespaces.length ∧ (c = Call.filter j ns ∨ c = Call.scan j ns) := by
  induction namespaces generalizing i with
  | nil => simp [passCalls] at hc
  | cons n rest ih =>
    simp only [passCalls, List.mem_append] at hc
    rcases hc with hc | hc
    · refine ⟨i, n, le_refl _, by simp, ?_⟩
      by_cases hs : shouldSkipNamespace n cfg = true
      · simp [hs] at hc; exact Or.inl hc
      · simp [hs] at hc; exact hc
    · obtain ⟨j, ns, h1, h2, h3⟩ := ih (i + 1) hc
      exact ⟨j, ns, by omega, by simp only [List.length_cons]; omega, h3⟩

/-- The namespace loop when the context does not fire during it. -/
theorem namespaceLoop_completed (ctx : Context) (cfg : CheckConfig) (client : Clientset)
    (namespaces : List String) (i : Nat) (errors : List String) (calls : List Call)
    (hctx : ∀ k, i ≤ k → k < i + namespaces.length → ctx.Err k = none) :
    namespaceLoop ctx cfg client i namespaces errors calls =
      { errors := some (errors ++
          (namespaces.filter (fun ns => !shouldSkipNamespace ns cfg)).flatMap
            (fun ns => examineResourceQuotasForNamespace ns cfg.Threshold client))
        err := none
        calls := calls ++ passCalls cfg i namespaces } := by
  induction namespaces generalizing i errors calls with
  | nil => simp [namespaceLoop, passCalls]
  | cons ns rest ih =>
    have h0 : ctx.Err i = none := hctx i (le_refl _) (by simp)
    have hrest : ∀ k, i + 1 ≤ k → k < i + 1 + rest.length → ctx.Err k = none := by
      intro k h1 h2
      exact hctx k (by omega) (by simp only [List.length_cons]; omega)
    by_cases hs : shouldSkipNamespace ns cfg = true
    · simp [namespaceLoop, h0, hs, ih (i + 1) _ _ hrest, passCalls]
    · simp [namespaceLoop, h0, hs, ih (i + 1) _ _ hrest, passCalls, List.append_assoc]

/-- The namespace loop when the context is seen fired at the iteration that
follows the namespaces `before`. -/
theorem namespaceLoop_aborted (ctx : Context) (cfg : CheckConfig) (client : Clientset)
    (before : List String) (ns : String) (after : List String) (i : Nat) (e : GoError)
    (errors : List String) (calls : List Call)
    (hctx : ∀ k, i ≤ k → k < i + before.length → ctx.Err k = none)
    (hfired : ctx.Err (i + before.length) = some e) :
    namespaceLoop ctx cfg client i (before ++ ns :: after) errors calls =
      { errors := none, err := some e, calls := calls ++ passCalls cfg i before } := by
  induction before generalizing i errors calls with
  | nil =>
    simp only [List.length_nil, Nat.add_zero] at hfired
    simp [namespaceLoop, hfired, passCalls]
  | cons n rest ih =>
    have h0 : ctx.Err i = none := hctx i (le_refl _) (by simp)
    have hrest : ∀ k, i + 1 ≤ k → k < i + 1 + rest.length → ctx.Err k = none := by
      intro k h1 h2
      exact hctx k (by omega) (by simp only [List.length_cons]; omega)
    have hf : ctx.Err (i + 1 + rest.length) = some e := by
      have : i + 1 + rest.length = i + (n :: rest).length := by
        simp only [List.length_cons]; omega
      rw [this]; exact hfired
    by_cases hs : shouldSkipNamespace n cfg = true
    · simp [namespaceLoop, h0, hs, ih (i + 1) _ _ hrest hf, passCalls]
    · simp [namespaceLoop, h0, hs, ih (i + 1) _ _ hrest hf, passCalls, List.append_assoc]

/-! ## The namespace filter -/

/-- C3: `shouldSkipNamespace` returns true exactly when the name is an element
of the blacklist, or the whitelist is non-empty and the name is not an element
of it; so a blacklisted name is skipped whatever the whitelist holds, and with
both lists empty nothing is skipped. -/
theorem shouldSkipNamespace_iff (ns : String) (cfg : CheckConfig) :
    (shouldSkipNamespace ns cfg = true ↔
      ns ∈ cfg.Blacklist ∨ (cfg.Whitelist ≠ [] ∧ ns ∉ cfg.Whitelist)) ∧
    (ns ∈ cfg.Blacklist → shouldSkipNamespace ns cfg = true) ∧
    (cfg.Blacklist = [] → cfg.Whitelist = [] → shouldSkipNamespace ns cfg = false) := by
  have key : shouldSkipNamespace ns cfg = true ↔
      ns ∈ cfg.Blacklist ∨ (cfg.Whitelist ≠ [] ∧ ns ∉ cfg.Whitelist) := by
    unfold shouldSkipNamespace
    by_cases hb : ns ∈ cfg.Blacklist
    · have hlen : cfg.Blacklist.length > 0 := List.length_pos_of_mem hb
      simp [hb, hlen, (contains_iff_mem ns cfg.Blacklist).2 hb]
    · have hb' : contains ns cfg.Blacklist = false := (contains_eq_false_iff _ _).2 hb
      by_cases hw : ns ∈ cfg.Whitelist
      · simp [hb, hb', hw, (contains_iff_mem ns cfg.Whitelist).2 hw]
      · have hw' : contains ns cfg.Whitelist = false := (contains_eq_false_iff _ _).2 hw
        by_cases hne : cfg.Whitelist = []
        · simp [hb, hb', hne]
        · have hlen : cfg.Whitelist.length > 0 := List.length_pos.2 hne
          simp [hb, hb', hw, hw', hne, hlen]
  refine ⟨key, fun hb => key.2 (Or.inl hb), fun hb hw => ?_⟩
  cases hs : shouldSkipNamespace ns cfg with
  | false => rfl
  | true =>
    rcases key.1 hs with h | h
    · rw [hb] at h; simp at h
    · exact absurd hw h.1

/-! ## The pass -/

/-- C5: when the context is seen fired at namespace `i`, having not been seen
fired before, `runResourceQuotaCheck` returns the context's error and the nil
slice, whatever the namespaces before `i` produced; no call of the filter or of
the scanner is made for namespace `i` or a later one, the calls made being
those of a pass over the first `i` namespaces. -/
theorem runResourceQuotaCheck_cancelled (ctx : Context) (cfg : CheckConfig)
    (client : Clientset) (allNamespaces : List String) (i : Nat) (e : GoError)
    (hlist : client.Namespaces = .ok allNamespaces) (hi : i < allNamespaces.length)
    (hbefore : ∀ k, k < i → ctx.Err k = none) (hfired : ctx.Err i = some e) :
    (runResourceQuotaCheck ctx cfg client).errors = none ∧
    (runResourceQuotaCheck ctx cfg client).err = some e ∧
    (runResourceQuotaCheck ctx cfg client).calls = passCalls cfg 0 (allNamespaces.take i) ∧
    (∀ j ns, i ≤ j →
      Call.filter j ns ∉ (runResourceQuotaCheck ctx cfg client).calls ∧
      Call.scan j ns ∉ (runResourceQuotaCheck ctx cfg client).calls) := by
  have hsplit : allNamespaces =
      allNamespaces.take i ++ allNamespaces[i] :: allNamespaces.drop (i + 1) := by
    rw [← List.drop_eq_getElem_cons hi, List.take_append_drop]
  have hlen : (allNamespaces.take i).length = i := by
    rw [List.length_take]; omega
  have hrun : runResourceQuotaCheck ctx cfg client =
      { errors := none, err := some e, calls := passCalls cfg 0 (allNamespaces.take i) } := by
    unfold runResourceQuotaCheck
    rw [hlist]
    show namespaceLoop ctx cfg client 0 allNamespaces [] [] = _
    rw [hsplit, namespaceLoop_aborted ctx cfg client (allNamespaces.take i) allNamespaces[i]
      (allNamespaces.drop (i + 1)) 0 e [] []
      (fun k _ hk => hbefore k (by rw [hlen] at hk; omega))
      (by rw [hlen, Nat.zero_add]; exact hfired)]
    simp
  rw [hrun]
  refine ⟨rfl, rfl, rfl, fun j ns hj => ⟨fun hmem => ?_, fun hmem => ?_⟩⟩
  · obtain ⟨j', ns', _, h2, h3⟩ := passCalls_index cfg _ 0 _ hmem
    rw [hlen] at h2
    rcases h3 with h3 | h3
    · injection h3 with h3 _; omega
    · cases h3
  · obtain ⟨j', ns', _, h2, h3⟩ := passCalls_index cfg _ 0 _ hmem
    rw [hlen] at h2
    rcases h3 with h3 | h3
    · cases h3
    · injection h3 with h3 _; omega

/-- C5 at a concrete input: three namespaces, the deadline seen expired at the
second one. -/
theorem runResourceQuotaCheck_cancelled_witness :
    (runResourceQuotaCheck (firedAt 1 GoError.deadlineExceeded) plainConfig
      threeNamespaces).errors = none ∧
    (runResourceQuotaCheck (firedAt 1 GoError.deadlineExceeded) plainConfig
      threeNamespaces).err = some GoError.deadlineExceeded ∧
    (runResourceQuotaCheck (firedAt 1 GoError.deadlineExceeded) plainConfig
      threeNamespaces).calls = passCalls plainConfig 0 (["ns1", "ns2", "ns3"].take 1) ∧
    (∀ j ns, 1 ≤ j →
      Call.filter j ns ∉ (runResourceQuotaCheck (firedAt 1 GoError.deadlineExceeded)
        plainConfig threeNamespaces).calls ∧
      Call.scan j ns ∉ (runResourceQuotaCheck (firedAt 1 GoError.deadlineExceeded)
        plainConfig threeNamespaces).calls) :=
  runResourceQuotaCheck_cancelled (firedAt 1 GoError.deadlineExceeded) plainConfig
    threeNamespaces ["ns1", "ns2", "ns3"] 1 GoError.deadlineExceeded rfl (by decide)
    (fun k hk => if_pos hk) (by simp [firedAt])

/-- C10: a pass that is not cancelled returns, without error, the concatenation
in listing order of the results of `examineResourceQuotasForNamespace` for
exactly the namespaces `shouldSkipNamespace` keeps; and the result for a
namespace whose listing succeeds is the concatenation, in the order of the
quota listing, of the CPU message (if the CPU test holds) followed by the
memory message (if the memory test holds) of each quota. -/
theorem runResourceQuotaCheck_order (ctx : Context) (cfg : CheckConfig)
    (client : Clientset) (allNamespaces : List String)
    (hlist : client.Namespaces = .ok allNamespaces)
    (hctx : ∀ k, k < allNamespaces.length → ctx.Err k = none) :
    (runResourceQuotaCheck ctx cfg client).err = none ∧
    (runResourceQuotaCheck ctx cfg client).errors =
      some ((allNamespaces.filter (fun ns => !shouldSkipNamespace ns cfg)).flatMap
        (fun ns => examineResourceQuotasForNamespace ns cfg.Threshold client)) ∧
    (∀ ns quotas, client.ResourceQuotas ns = .ok quotas →
      examineResourceQuotasForNamespace ns cfg.Threshold client =
        quotas.flatMap (fun rq =>
          (if F64.ge (percentUsed rq.Status.Used.CpuMilliValue rq.Status.Hard.CpuMilliValue)
              cfg.Threshold = true then
            [cpuMessage ns cfg.Threshold rq.Status.Used.CpuMilliValue
              rq.Status.Hard.CpuMilliValue
              (percentUsed rq.Status.Used.CpuMilliValue rq.Status.Hard.CpuMilliValue)]
          else []) ++
          (if F64.ge (percentUsed rq.Status.Used.MemoryMilliValue
              rq.Status.Hard.MemoryMilliValue) cfg.Threshold = true then
            [memoryMessage ns cfg.Threshold rq.Status.Used.MemoryMilliValue
              rq.Status.Hard.MemoryMilliValue
              (percentUsed rq.Status.Used.MemoryMilliValue rq.Status.Hard.MemoryMilliValue)]
          else []))) := by
  have hrun : runResourceQuotaCheck ctx cfg client =
      namespaceLoop ctx cfg client 0 allNamespaces [] [] := by
    unfold runResourceQuotaCheck
    rw [hlist]
  rw [hrun, namespaceLoop_completed ctx cfg client allNamespaces 0 [] []
    (fun k _ hk => hctx k (by omega))]
  refine ⟨rfl, by simp, fun ns quotas hq => ?_⟩
  unfold examineResourceQuotasForNamespace
  rw [hq]
  show quotas.foldl (examineQuota ns cfg.Threshold) [] = _
  rw [quotaLoop_eq_flatMap, List.nil_append]
  congr 1
  funext rq
  exact examineQuota_nil ns cfg.Threshold rq

/-- C8: in a pass that is not cancelled, a kept namespace whose quota listing
fails adds exactly one string, the listing error naming the namespace, between
the results of the namespaces before it and those of the namespaces after it;
the pass returns without error; and the result of any other namespace is the
one it has in a cluster that differs only in the listing of the failing
namespace. -/
theorem listing_failure_is_one_warning (ctx : Context) (cfg : CheckConfig)
    (client : Clientset) (before after : List String) (bad : String) (err : GoError)
    (hlist : client.Namespaces = .ok (before ++ bad :: after))
    (hctx : ∀ k, k < (before ++ bad :: after).length → ctx.Err k = none)
    (hkept : shouldSkipNamespace bad cfg = false)
    (hfail : client.ResourceQuotas bad = .error err) :
    (runResourceQuotaCheck ctx cfg client).err = none ∧
    (runResourceQuotaCheck ctx cfg client).errors =
      some ((before.filter (fun ns => !shouldSkipNamespace ns cfg)).flatMap
          (fun ns => examineResourceQuotasForNamespace ns cfg.Threshold client) ++
        ["error occurred listing resource quotas for " ++ bad ++ " namespace " ++ err.Error] ++
        (after.filter (fun ns => !shouldSkipNamespace ns cfg)).flatMap
          (fun ns => examineResourceQuotasForNamespace ns cfg.Threshold client)) ∧
    (∀ other : Clientset,
      (∀ ns, ns ≠ bad → other.ResourceQuotas ns = client.ResourceQuotas ns) →
      ∀ ns, ns ≠ bad →
        examineResourceQuotasForNamespace ns cfg.Threshold other =
          examineResourceQuotasForNamespace ns cfg.Threshold client) := by
  have hrun : runResourceQuotaCheck ctx cfg client =
      namespaceLoop ctx cfg client 0 (before ++ bad :: after) [] [] := by
    unfold runResourceQuotaCheck
    rw [hlist]
  have hbad : examineResourceQuotasForNamespace bad cfg.Threshold client =
      ["error occurred listing resource quotas for " ++ bad ++ " namespace " ++ err.Error] := by
    unfold examineResourceQuotasForNamespace
    rw [hfail]
    rfl
  rw [hrun, namespaceLoop_completed ctx cfg client (before ++ bad :: after) 0 [] []
    (fun k _ hk => hctx k (by omega))]
  refine ⟨rfl, ?_, fun other hsame ns hns => ?_⟩
  · simp [List.filter_append, List.filter_cons, hkept, List.flatMap_append, List.flatMap_cons,
      hbad]
  · unfold examineResourceQuotasForNamespace
    rw [hsame ns hns]

/-- C10 at a concrete input: three namespaces holding the quota of scenario A
give the three CPU messages in listing order. -/
theorem runResourceQuotaCheck_order_witness :
    (runResourceQuotaCheck neverDone plainConfig threeNamespaces).errors =
      some [
        "cpu for ns1 namespace has reached threshold of 0.90: USED: 950 LIMIT: 1000 PERCENT_USED:  0.950",
        "cpu for ns2 namespace has reached threshold of 0.90: USED: 950 LIMIT: 1000 PERCENT_USED:  0.950",
        "cpu for ns3 namespace has reached threshold of 0.90: USED: 950 LIMIT: 1000 PERCENT_USED:  0.950"] :=
  (runResourceQuotaCheck_order neverDone plainConfig threeNamespaces ["ns1", "ns2", "ns3"]
    rfl (fun _ _ => rfl)).2.1.trans (by decide)

/-- C8 at a concrete input: of three namespaces the second one's listing fails. -/
theorem listing_failure_is_one_warning_witness :
    (runResourceQuotaCheck neverDone plainConfig secondListingFails).err = none ∧
    (runResourceQuotaCheck neverDone plainConfig secondListingFails).errors =
      some [
        "cpu for ns1 namespace has reached threshold of 0.90: USED: 950 LIMIT: 1000 PERCENT_USED:  0.950",
        "error occurred listing resource quotas for ns2 namespace the server is unavailable",
        "cpu for ns3 namespace has reached threshold of 0.90: USED: 950 LIMIT: 1000 PERCENT_USED:  0.950"] :=
  ⟨(listing_failure_is_one_warning neverDone plainConfig secondListingFails ["ns1"] ["ns3"]
      "ns2" (GoError.other "the server is unavailable") rfl (fun _ _ => rfl) (by decide)
      rfl).1,
    (listing_failure_is_one_warning neverDone plainConfig secondListingFails ["ns1"] ["ns3"]
      "ns2" (GoError.other "the server is unavailable") rfl (fun _ _ => rfl) (by decide)
      rfl).2.1.trans (by decide)⟩

/-! ## The report -/

/-- C6, as the code has it: when the context is seen fired at the second of
three namespaces, the pass returns the nil slice, and the report is a failure
carrying one message only, the timeout text for an expired deadline and the
error's own text otherwise; it is never the success report. -/
theorem mainReport_cancelled_at_second (ctx : Context) (cfg : CheckConfig)
    (client : Clientset) (n1 n2 n3 : String) (e : GoError)
    (hlist : client.Namespaces = .ok [n1, n2, n3])
    (h0 : ctx.Err 0 = none) (h1 : ctx.Err 1 = some e) :
    (runResourceQuotaCheck ctx cfg client).errors = none ∧
    mainReport ctx cfg client =
      Report.failure [if e = GoError.deadlineExceeded then "Check took too long and timed out."
        else e.Error] ∧
    mainReport ctx cfg client ≠ Report.success := by
  have hrun := namespaceLoop_aborted ctx cfg client [n1] n2 [n3] 0 e [] []
    (fun k hk1 hk2 => by
      have : k = 0 := by simp at hk2; omega
      rw [this]; exact h0)
    (by simpa using h1)
  have hrun' : runResourceQuotaCheck ctx cfg client =
      { errors := none, err := some e, calls := [] ++ passCalls cfg 0 [n1] } := by
    unfold runResourceQuotaCheck
    rw [hlist]
    exact hrun
  have hrep : mainReport ctx cfg client =
      Report.failure [if e = GoError.deadlineExceeded then "Check took too long and timed out."
        else e.Error] := by
    unfold mainReport
    rw [hrun']
    by_cases he : e = GoError.deadlineExceeded
    · simp [handleRunError, reportFailureAndExit, he, GoError.Error]
    · simp [handleRunError, reportFailureAndExit, he]
  refine ⟨by rw [hrun'], hrep, ?_⟩
  rw [hrep]
  exact fun h => Report.noConfusion h

/-- C6, as the code has it, at a concrete input: an interrupt cancels the context between
the first and the second of three namespaces. -/
theorem mainReport_cancelled_at_second_witness :
    mainReport (firedAt 1 GoError.canceled) plainConfig threeNamespaces =
      Report.failure ["context canceled"] :=
  (mainReport_cancelled_at_second (firedAt 1 GoError.canceled) plainConfig threeNamespaces
    "ns1" "ns2" "ns3" GoError.canceled rfl rfl rfl).2.1.trans (by decide)

/-- C6 does not hold as stated: in scenario F the first namespace has a result, a CPU
message, and the report carries the timeout text alone. -/
theorem scenarioF_drops_first_namespace :
    examineResourceQuotasForNamespace "ns1" plainConfig.Threshold threeNamespaces =
      ["cpu for ns1 namespace has reached threshold of 0.90: USED: 950 LIMIT: 1000 PERCENT_USED:  0.950"] ∧
    mainReport (firedAt 1 GoError.deadlineExceeded) plainConfig threeNamespaces =
      Report.failure ["Check took too long and timed out."] ∧
    ¬ ∃ msgs, mainReport (firedAt 1 GoError.deadlineExceeded) plainConfig threeNamespaces =
        Report.failure msgs ∧
      ∀ m ∈ examineResourceQuotasForNamespace "ns1" plainConfig.Threshold threeNamespaces,
        m ∈ msgs := by
  have hex : examineResourceQuotasForNamespace "ns1" plainConfig.Threshold threeNamespaces =
      ["cpu for ns1 namespace has reached threshold of 0.90: USED: 950 LIMIT: 1000 PERCENT_USED:  0.950"] := by
    decide
  have hrep : mainReport (firedAt 1 GoError.deadlineExceeded) plainConfig threeNamespaces =
      Report.failure ["Check took too long and timed out."] := by
    decide
  refine ⟨hex, hrep, ?_⟩
  rintro ⟨msgs, hm, hall⟩
  rw [hrep] at hm
  injection hm with hm
  rw [hex, ← hm] at hall
  exact absurd (hall _ (List.mem_singleton.2 rfl)) (by decide)

/-- C7, as the code has it: `handleRunError` reports a failure with one message,
which is the timeout text for `context.DeadlineExceeded` and the error's own
text for every other error, `context.Canceled` included. -/
theorem handleRunError_message (err : GoError) :
    handleRunError err =
      Report.failure [if err = GoError.deadlineExceeded then
        "Check took too long and timed out." else err.Error] ∧
    handleRunError GoError.deadlineExceeded =
      Report.failure ["Check took too long and timed out."] ∧
    handleRunError GoError.canceled = Report.failure ["context canceled"] := by
  refine ⟨?_, by decide, by decide⟩
  by_cases he : err = GoError.deadlineExceeded
  · simp [handleRunError, reportFailureAndExit, he, GoError.Error]
  · simp [handleRunError, reportFailureAndExit, he]

/-- C7 does not hold as stated: a pass aborted by cancellation is reported with the
text of `context.Canceled`, not with the timeout text. -/
theorem handleRunError_canceled_not_timeout :
    (runResourceQuotaCheck (firedAt 1 GoError.canceled) plainConfig threeNamespaces).err =
      some GoError.canceled ∧
    handleRunError GoError.canceled = Report.failure ["context canceled"] ∧
    handleRunError GoError.canceled ≠ Report.failure ["Check took too long and timed out."] := by
  decide

/-! ## The configuration -/

/-- The time limit `parseConfig` stores is the distance from five seconds after
`time.Now()` to the time `GetDeadline` returned, whether or not `GetDeadline`
returned an error. -/
theorem parseConfig_checkTimeLimit (w : World) (cfg : CheckConfig)
    (h : parseConfig w = .ok cfg) :
    cfg.CheckTimeLimit = Time.Sub w.GetDeadline.1 (Time.Add w.Now (Second * 5)) := by
  unfold parseConfig at h
  split at h
  · cases h
  · dsimp only at h
    split at h
    · cases h
    · injection h with h
      rw [← h]

/-- C9 does not hold on the code: with `GetDeadline` returning an error, the time limit
is not five minutes less the margin but follows the time returned beside the
error: the zero time gives the least duration, a time one minute ahead gives 55
seconds. -/
theorem parseConfig_deadline_error_limit :
    (parseConfig worldNoDeadline).toOption.map CheckConfig.CheckTimeLimit =
      some (-9223372036854775808) ∧
    (parseConfig worldNoDeadlineLater).toOption.map CheckConfig.CheckTimeLimit =
      some (55 * Second) ∧
    defaultCheckTimeLimit - 5 * Second = 295 * Second := by
  decide

/-- The threshold `parseConfig` stores: the default normalized when `THRESHOLD`
is unset, the parsed value normalized otherwise. -/
theorem parseConfig_threshold (w : World) (cfg : CheckConfig)
    (h : parseConfig w = .ok cfg) :
    ((w.Getenv "THRESHOLD").length = 0 → cfg.Threshold = defaultThreshold) ∧
    (∀ x, (w.Getenv "THRESHOLD").length ≠ 0 → w.ParseFloat (w.Getenv "THRESHOLD") = .ok x →
      cfg.Threshold = normalizeThreshold x) := by
  have hdef : normalizeThreshold defaultThreshold = defaultThreshold := by decide
  unfold parseConfig at h
  split at h
  · cases h
  · dsimp only at h
    constructor
    · intro hunset
      rw [if_neg (by simpa using hunset)] at h
      injection h with h
      rw [← h]
      exact hdef
    · intro x hset hx
      rw [if_pos hset, hx] at h
      injection h with h
      rw [← h]

/-- The threshold `parseConfig` stores lies in `(0, 0.99]` as soon as the value
parsed from `THRESHOLD` is not NaN. -/
theorem parseConfig_threshold_range (w : World) (cfg : CheckConfig)
    (h : parseConfig w = .ok cfg)
    (hx : ∀ x, w.ParseFloat (w.Getenv "THRESHOLD") = .ok x → x ≠ F64.nan) :
    F64.lt F64.zero cfg.Threshold = true ∧
    F64.le cfg.Threshold (F64.ofRatio false 99 100) = true := by
  obtain ⟨hunset, hset⟩ := parseConfig_threshold w cfg h
  by_cases hlen : (w.Getenv "THRESHOLD").length = 0
  · rw [hunset hlen]
    exact ⟨defaultThreshold_in_range.2.2.1, defaultThreshold_in_range.2.2.2⟩
  · cases hp : w.ParseFloat (w.Getenv "THRESHOLD") with
    | error e =>
      exfalso
      unfold parseConfig at h
      split at h
      · cases h
      · dsimp only at h
        rw [if_pos hlen, hp] at h
        cases h
    | ok x =>
      rw [hset x hlen hp]
      exact (normalizeThreshold_spec x).2.2 (hx x hp)

/-- C4 does not hold on the code: `THRESHOLD=NaN` parses without error, passes both
range tests, and is stored as the threshold, which is then outside `(0, 0.99]`. -/
theorem parseConfig_threshold_nan :
    (parseConfig worldThresholdNaN).toOption.map CheckConfig.Threshold = some F64.nan ∧
    F64.lt F64.zero F64.nan = false ∧
    F64.le F64.nan (F64.ofRatio false 99 100) = false := by
  decide

/-! ## The threshold test -/

/-- The result for a namespace, split at one quota of its listing. -/
theorem examine_split (ns : String) (threshold : F64) (client : Clientset)
    (before after : List ResourceQuota) (rq : ResourceQuota)
    (hq : client.ResourceQuotas ns = .ok (before ++ rq :: after)) :
    examineResourceQuotasForNamespace ns threshold client =
      before.flatMap (examineQuota ns threshold []) ++ examineQuota ns threshold [] rq ++
        after.flatMap (examineQuota ns threshold []) := by
  unfold examineResourceQuotasForNamespace
  rw [hq]
  show (before ++ rq :: after).foldl (examineQuota ns threshold) [] = _
  rw [quotaLoop_eq_flatMap, List.nil_append, List.flatMap_append, List.flatMap_cons,
    List.append_assoc]

/-- C1, as the code has it: for a quota whose hard limit of a dimension is 0 or
missing and a threshold above 0, the division yields NaN or an infinity and
no fault; between the results of the quotas listed before and after it, the
quota contributes the message of that dimension exactly when its used value is
positive (the percentage is then `+Inf`), and none when the used value is 0 or
negative; the other dimension is tested as usual. -/
theorem hard_zero_dimension (ns : String) (threshold : F64) (client : Clientset)
    (before after : List ResourceQuota) (rq : ResourceQuota)
    (hq : client.ResourceQuotas ns = .ok (before ++ rq :: after))
    (hpos : F64.lt F64.zero threshold = true) :
    (rq.Status.Hard.CpuMilliValue = 0 →
      examineResourceQuotasForNamespace ns threshold client =
        before.flatMap (examineQuota ns threshold []) ++
        ((if 0 < rq.Status.Used.CpuMilliValue then
            [cpuMessage ns threshold rq.Status.Used.CpuMilliValue 0 (F64.inf false)]
          else []) ++
         (if F64.ge (percentUsed rq.Status.Used.MemoryMilliValue
              rq.Status.Hard.MemoryMilliValue) threshold = true then
            [memoryMessage ns threshold rq.Status.Used.MemoryMilliValue
              rq.Status.Hard.MemoryMilliValue
              (percentUsed rq.Status.Used.MemoryMilliValue rq.Status.Hard.MemoryMilliValue)]
          else [])) ++
        after.flatMap (examineQuota ns threshold [])) ∧
    (rq.Status.Hard.MemoryMilliValue = 0 →
      examineResourceQuotasForNamespace ns threshold client =
        before.flatMap (examineQuota ns threshold []) ++
        ((if F64.ge (percentUsed rq.Status.Used.CpuMilliValue
              rq.Status.Hard.CpuMilliValue) threshold = true then
            [cpuMessage ns threshold rq.Status.Used.CpuMilliValue
              rq.Status.Hard.CpuMilliValue
              (percentUsed rq.Status.Used.CpuMilliValue rq.Status.Hard.CpuMilliValue)]
          else []) ++
         (if 0 < rq.Status.Used.MemoryMilliValue then
            [memoryMessage ns threshold rq.Status.Used.MemoryMilliValue 0 (F64.inf false)]
          else [])) ++
        after.flatMap (examineQuota ns threshold [])) := by
  constructor
  · intro hz
    rw [examine_split ns threshold client before after rq hq, examineQuota_nil, hz,
      ge_percentUsed_hard_zero _ _ hpos]
    by_cases hu : 0 < rq.Status.Used.CpuMilliValue
    · have hne : rq.Status.Used.CpuMilliValue ≠ 0 := by omega
      have hnn : ¬ rq.Status.Used.CpuMilliValue < 0 := by omega
      simp [hu, percentUsed_hard_zero, hne, hnn]
    · simp [hu]
  · intro hz
    rw [examine_split ns threshold client before after rq hq, examineQuota_nil, hz,
      ge_percentUsed_hard_zero _ _ hpos]
    by_cases hu : 0 < rq.Status.Used.MemoryMilliValue
    · have hne : rq.Status.Used.MemoryMilliValue ≠ 0 := by omega
      have hnn : ¬ rq.Status.Used.MemoryMilliValue < 0 := by omega
      simp [hu, percentUsed_hard_zero, hne, hnn]
    · simp [hu]

/-- C1, as the code has it, at a concrete input: no hard limit for CPU, 500 milli-CPU
used, the default threshold. -/
theorem hard_zero_dimension_witness :
    examineResourceQuotasForNamespace "ns1" defaultThreshold noCpuLimitCluster =
      ["cpu for ns1 namespace has reached threshold of 0.90: USED: 500 LIMIT: 0 PERCENT_USED:   +Inf"] :=
  ((hard_zero_dimension "ns1" defaultThreshold noCpuLimitCluster [] [] quotaNoCpuLimit rfl
    (by decide)).1 (by decide)).trans (by decide)

/-- C1 does not hold as stated: a quota with no hard limit for CPU and a positive used
value gets a CPU message, at the default threshold, which lies in `(0, 0.99]`. -/
theorem hard_zero_emits_violation :
    quotaNoCpuLimit.Status.Hard.cpu = none ∧
    quotaNoCpuLimit.Status.Hard.CpuMilliValue = 0 ∧
    F64.lt F64.zero defaultThreshold = true ∧
    F64.le defaultThreshold (F64.ofRatio false 99 100) = true ∧
    percentUsed 500 0 = F64.inf false ∧
    examineQuota "ns1" defaultThreshold [] quotaNoCpuLimit =
      [cpuMessage "ns1" defaultThreshold 500 0 (F64.inf false)] ∧
    noCpuLimitCluster.ResourceQuotas "ns1" = .ok [quotaNoCpuLimit] ∧
    examineResourceQuotasForNamespace "ns1" defaultThreshold noCpuLimitCluster =
      ["cpu for ns1 namespace has reached threshold of 0.90: USED: 500 LIMIT: 0 PERCENT_USED:   +Inf"] := by
  refine ⟨rfl, by decide, by decide, by decide, by decide, by decide, rfl, by decide⟩

section Exact
open F64

/-- A threshold of `(0, 0.99]` is a positive finite value. -/
theorem threshold_form (t : F64) (hpos : F64.lt F64.zero t = true)
    (hle : F64.le t (ofRatio false 99 100) = true) :
    ∃ mt et, t = fin false mt et ∧ 0 < mt := by
  rw [ofRatio_99_100] at hle
  cases t with
  | nan => simp [F64.lt, F64.zero] at hpos
  | inf s => cases s <;> simp [F64.lt, F64.le, F64.zero] at hpos hle
  | fin s m ex =>
    cases s
    · refine ⟨m, ex, rfl, ?_⟩
      simp only [F64.lt, F64.zero, Nat.zero_mul, decide_eq_true_eq] at hpos
      by_contra hm
      have : m = 0 := by omega
      rw [this, Nat.zero_mul] at hpos
      exact absurd hpos (lt_irrefl 0)
    · simp [F64.lt, F64.zero] at hpos

/-- A negative used value over a positive hard limit reaches no positive
threshold. -/
theorem ge_percentUsed_neg (used hard : Int) (mt et : Nat) (hu : used < 0) (hh : 0 < hard)
    (hmt : 0 < mt) : F64.ge (percentUsed used hard) (fin false mt et) = false := by
  have hs1 : decide (used < 0) = true := by simpa using hu
  have hs2 : decide (hard < 0) = false := by simp; omega
  have hmt0 : mt ≠ 0 := by omega
  unfold F64.ge percentUsed
  rcases ofInt_ne_zero used (by omega) with ⟨m1, e1, h1, hm1⟩ | h1 <;>
    rcases ofInt_ne_zero hard (by omega) with ⟨m2, e2, h2, hm2⟩ | h2 <;>
    rw [h1, h2, hs1, hs2]
  · simp only [F64.div, if_neg hm2, Bool.xor_false]
    unfold ofRatio
    have hp : m1 * 2 ^ (e1 - min e1 e2) ≠ 0 :=
      Nat.mul_ne_zero hm1 (Nat.pos_iff_ne_zero.1 (Nat.pow_pos (by decide)))
    rw [if_neg hp]
    cases roundMag (m1 * 2 ^ (e1 - min e1 e2)) (m2 * 2 ^ (e2 - min e1 e2)) with
    | none => rfl
    | some r => simp [F64.le, hmt0]
  · simp [F64.div, F64.le, hmt0]
  · simp [F64.div, F64.le]
  · simp [F64.div, F64.le]

/-- The test of a dimension against the exact quotient `used / hard`, where
both milli-values convert without rounding and the hard limit is positive: the
test holds whenever the quotient is `t` or more, and only if the quotient is
`t * (1 - 2 ^ (-53))` or more. -/
theorem ge_percentUsed_exact (used hard : Int) (t : F64)
    (hpos : F64.lt F64.zero t = true) (hle : F64.le t (ofRatio false 99 100) = true)
    (hwf : t.mant < 2 ^ 53) (hh0 : 0 < hard) (hh : hard < 2 ^ 53)
    (hu : used.natAbs < 2 ^ 53) :
    (t.toRat ≤ (used : ℚ) / (hard : ℚ) → F64.ge (percentUsed used hard) t = true) ∧
    (F64.ge (percentUsed used hard) t = true →
      t.toRat * (1 - 1 / 2 ^ 53) ≤ (used : ℚ) / (hard : ℚ)) := by
  obtain ⟨mt, et, rfl, hmt⟩ := threshold_form t hpos hle
  have hwf' : mt < 2 ^ 53 := hwf
  have hA : (0 : ℚ) < 2 ^ 1074 := by positivity
  have hT : (0 : ℚ) < (mt : ℚ) * 2 ^ et := by
    have : (0 : ℚ) < (mt : ℚ) := by exact_mod_cast hmt
    positivity
  have htr : (fin false mt et).toRat = (mt : ℚ) * 2 ^ et / 2 ^ 1074 := by
    simp [F64.toRat]
  rw [htr]
  lift hard to ℕ using (le_of_lt hh0)
  have hhn : 0 < hard := by exact_mod_cast hh0
  have hhn' : hard < 2 ^ 53 := by exact_mod_cast hh
  have hH : (0 : ℚ) < (hard : ℚ) := by exact_mod_cast hhn
  by_cases hneg : used < 0
  · -- a negative quotient
    have hq : ((used : ℤ) : ℚ) / ((hard : ℕ) : ℚ) < 0 :=
      div_neg_of_neg_of_pos (by exact_mod_cast hneg) hH
    have hfalse := ge_percentUsed_neg used (hard : ℤ) mt et hneg (by exact_mod_cast hhn) hmt
    constructor
    · intro h
      have : (0 : ℚ) < (mt : ℚ) * 2 ^ et / 2 ^ 1074 := div_pos hT hA
      push_cast at h hq
      linarith
    · intro h
      rw [hfalse] at h
      cases h
  · lift used to ℕ using (by omega)
    have hun : used < 2 ^ 53 := by simpa using hu
    constructor
    · intro h
      apply ge_percentUsed_of_exact used hard mt et hun hhn' hhn hwf'
      have h' : (mt : ℚ) * 2 ^ et * (hard : ℚ) ≤ (used : ℚ) * 2 ^ 1074 := by
        push_cast at h
        rwa [div_le_div_iff₀ hA hH] at h
      exact_mod_cast h'
    · intro h
      have hN := exact_of_ge_percentUsed used hard mt et hun hhn' hhn h
      have hB : (2 : ℕ) ^ 53 - 1 + 1 = 2 ^ 53 := by norm_num
      have hN' : mt * 2 ^ et * hard * 2 ^ 53 ≤ used * 2 ^ 1074 * 2 ^ 53 + mt * 2 ^ et * hard := by
        have : mt * 2 ^ et * hard * 2 ^ 53 =
            mt * 2 ^ et * hard * (2 ^ 53 - 1) + mt * 2 ^ et * hard := by
          conv_lhs => rw [← hB]
          ring
        omega
      have hQ : (mt : ℚ) * 2 ^ et * (hard : ℚ) * 2 ^ 53 ≤
          (used : ℚ) * 2 ^ 1074 * 2 ^ 53 + (mt : ℚ) * 2 ^ et * (hard : ℚ) := by
        exact_mod_cast hN'
      push_cast
      generalize (2 : ℚ) ^ 1074 = A at hA hQ ⊢
      generalize (mt : ℚ) * 2 ^ et = T at hT hQ ⊢
      have hB' : (0 : ℚ) < 2 ^ 53 := by positivity
      generalize (2 : ℚ) ^ 53 = B at hB' hQ ⊢
      rw [div_mul_eq_mul_div, div_le_div_iff₀ hA hH]
      have hone : T * (1 - 1 / B) * B = T * B - T := by
        field_simp
        ring
      have key : T * (1 - 1 / B) * (hard : ℚ) * B ≤ (used : ℚ) * A * B := by
        have : T * (1 - 1 / B) * (hard : ℚ) * B = (T * (1 - 1 / B) * B) * (hard : ℚ) := by ring
        rw [this, hone]
        nlinarith
      exact le_of_mul_le_mul_right key hB'

end Exact

/-- The two messages of a quota differ: one starts with `c`, the other with `m`. -/
theorem cpuMessage_ne_memoryMessage (ns ns2 : String) (t t2 : F64) (u l u2 l2 : Int)
    (p p2 : F64) : cpuMessage ns t u l p ≠ memoryMessage ns2 t2 u2 l2 p2 := by
  intro h
  have hd := congrArg String.data h
  have hc : ("cpu for " : String).data = ['c', 'p', 'u', ' ', 'f', 'o', 'r', ' '] := rfl
  have hm : ("memory for " : String).data =
      ['m', 'e', 'm', 'o', 'r', 'y', ' ', 'f', 'o', 'r', ' '] := rfl
  simp only [cpuMessage, memoryMessage, String.data_append, hc, hm, List.cons_append,
    List.cons.injEq] at hd
  exact absurd hd.1 (by decide)

/-- The CPU message is among what a quota contributes exactly when the CPU test
holds. -/
theorem cpuMessage_mem_iff (ns : String) (t : F64) (cu ch mu mh : Int) :
    cpuMessage ns t cu ch (percentUsed cu ch) ∈ examineQuota ns t [] (quotaWith cu ch mu mh) ↔
      F64.ge (percentUsed cu ch) t = true := by
  rw [examineQuota_nil]
  show cpuMessage ns t cu ch (percentUsed cu ch) ∈
    (if F64.ge (percentUsed cu ch) t = true then
      [cpuMessage ns t cu ch (percentUsed cu ch)] else []) ++
    (if F64.ge (percentUsed mu mh) t = true then
      [memoryMessage ns t mu mh (percentUsed mu mh)] else []) ↔ _
  by_cases hc : F64.ge (percentUsed cu ch) t = true <;>
    by_cases hm : F64.ge (percentUsed mu mh) t = true <;>
    simp [hc, hm, cpuMessage_ne_memoryMessage]

/-- The memory message is among what a quota contributes exactly when the
memory test holds. -/
theorem memoryMessage_mem_iff (ns : String) (t : F64) (cu ch mu mh : Int) :
    memoryMessage ns t mu mh (percentUsed mu mh) ∈
        examineQuota ns t [] (quotaWith cu ch mu mh) ↔
      F64.ge (percentUsed mu mh) t = true := by
  rw [examineQuota_nil]
  show memoryMessage ns t mu mh (percentUsed mu mh) ∈
    (if F64.ge (percentUsed cu ch) t = true then
      [cpuMessage ns t cu ch (percentUsed cu ch)] else []) ++
    (if F64.ge (percentUsed mu mh) t = true then
      [memoryMessage ns t mu mh (percentUsed mu mh)] else []) ↔ _
  by_cases hc : F64.ge (percentUsed cu ch) t = true <;>
    by_cases hm : F64.ge (percentUsed mu mh) t = true <;>
    simp [hc, hm, (cpuMessage_ne_memoryMessage _ _ _ _ _ _ _ _ _ _).symm]

theorem halfThreshold_eq : halfThreshold = F64.fin false 4503599627370496 1021 := by decide

/-- What a quota contributes depends on its four milli-values only, a missing
entry counting as `0`. -/
theorem examineQuota_quotaWith (ns : String) (t : F64) (rq : ResourceQuota) :
    examineQuota ns t [] rq =
      examineQuota ns t [] (quotaWith (rq.Status.Used.cpu.getD 0) (rq.Status.Hard.cpu.getD 0)
        (rq.Status.Used.memory.getD 0) (rq.Status.Hard.memory.getD 0)) := rfl

/-- C2, as the code has it: for a quota `rq` of the listing, with the
milli-values `cu`, `ch`, `mu`, `mh` of its entries (`0` for a missing entry),
and a binary64 threshold `t` of `(0, 0.99]`, the result holds, between the
results of the quotas listed before and after, what the quota contributes: the
CPU message if `float64(cu) / float64(ch) >= t`, then the memory message if
`float64(mu) / float64(mh) >= t`. Against the exact quotient, for a positive
hard limit and milli-values below `2 ^ 53` in magnitude: the message of a
dimension is contributed whenever `used / hard >= t`, and only if
`used / hard >= t * (1 - 2 ^ (-53))`. -/
theorem threshold_test (ns : String) (t : F64) (client : Clientset)
    (before after : List ResourceQuota) (rq : ResourceQuota) (cu ch mu mh : Int)
    (hq : client.ResourceQuotas ns = .ok (before ++ rq :: after))
    (hcu : rq.Status.Used.cpu.getD 0 = cu) (hch : rq.Status.Hard.cpu.getD 0 = ch)
    (hmu : rq.Status.Used.memory.getD 0 = mu) (hmh : rq.Status.Hard.memory.getD 0 = mh)
    (hpos : F64.lt F64.zero t = true) (hle : F64.le t (F64.ofRatio false 99 100) = true)
    (hwf : t.mant < 2 ^ 53) :
    examineResourceQuotasForNamespace ns t client =
      before.flatMap (examineQuota ns t []) ++ examineQuota ns t [] rq ++
        after.flatMap (examineQuota ns t []) ∧
    examineQuota ns t [] rq =
      (if F64.ge (percentUsed cu ch) t = true then
        [cpuMessage ns t cu ch (percentUsed cu ch)] else []) ++
      (if F64.ge (percentUsed mu mh) t = true then
        [memoryMessage ns t mu mh (percentUsed mu mh)] else []) ∧
    (0 < ch → ch < 2 ^ 53 → cu.natAbs < 2 ^ 53 →
      (t.toRat ≤ (cu : ℚ) / (ch : ℚ) →
        cpuMessage ns t cu ch (percentUsed cu ch) ∈ examineQuota ns t [] rq) ∧
      (cpuMessage ns t cu ch (percentUsed cu ch) ∈ examineQuota ns t [] rq →
        t.toRat * (1 - 1 / 2 ^ 53) ≤ (cu : ℚ) / (ch : ℚ))) ∧
    (0 < mh → mh < 2 ^ 53 → mu.natAbs < 2 ^ 53 →
      (t.toRat ≤ (mu : ℚ) / (mh : ℚ) →
        memoryMessage ns t mu mh (percentUsed mu mh) ∈ examineQuota ns t [] rq) ∧
      (memoryMessage ns t mu mh (percentUsed mu mh) ∈ examineQuota ns t [] rq →
        t.toRat * (1 - 1 / 2 ^ 53) ≤ (mu : ℚ) / (mh : ℚ))) := by
  have hrq : examineQuota ns t [] rq = examineQuota ns t [] (quotaWith cu ch mu mh) := by
    rw [examineQuota_quotaWith, hcu, hch, hmu, hmh]
  refine ⟨examine_split ns t client before after rq hq, ?_, ?_, ?_⟩
  · rw [hrq]
    exact examineQuota_nil ns t _
  · intro h0 h1 h2
    rw [hrq]
    obtain ⟨ha, hb⟩ := ge_percentUsed_exact cu ch t hpos hle hwf h0 h1 h2
    exact ⟨fun h => (cpuMessage_mem_iff ns t cu ch mu mh).2 (ha h),
      fun h => hb ((cpuMessage_mem_iff ns t cu ch mu mh).1 h)⟩
  · intro h0 h1 h2
    rw [hrq]
    obtain ⟨ha, hb⟩ := ge_percentUsed_exact mu mh t hpos hle hwf h0 h1 h2
    exact ⟨fun h => (memoryMessage_mem_iff ns t cu ch mu mh).2 (ha h),
      fun h => hb ((memoryMessage_mem_iff ns t cu ch mu mh).1 h)⟩

/-- C2, as the code has it, at concrete inputs: a CPU usage exactly at the
threshold one half and a memory usage above it give both messages, the CPU one
by the exact quotient; and scenario A, CPU 950 of 1000 and memory 500 of 1000
at the threshold 0.9, gives the CPU message alone. -/
theorem threshold_test_witness :
    examineResourceQuotasForNamespace "ns1" halfThreshold atThresholdCluster =
      ["cpu for ns1 namespace has reached threshold of 0.50: USED: 500 LIMIT: 1000 PERCENT_USED:  0.500",
       "memory for ns1 namespace has reached threshold of 0.50: USED: 990 LIMIT: 1000 PERCENT_USED:  0.990"] ∧
    cpuMessage "ns1" halfThreshold 500 1000 (percentUsed 500 1000) ∈
      examineQuota "ns1" halfThreshold [] (quotaWith 500 1000 990 1000) ∧
    examineResourceQuotasForNamespace "ns1" defaultThreshold threeNamespaces =
      ["cpu for ns1 namespace has reached threshold of 0.90: USED: 950 LIMIT: 1000 PERCENT_USED:  0.950"] :=
  ⟨(threshold_test "ns1" halfThreshold atThresholdCluster [] [] (quotaWith 500 1000 990 1000)
      500 1000 990 1000 rfl rfl rfl rfl rfl (by decide) (by decide) (by decide)).1.trans
      (by decide),
    ((threshold_test "ns1" halfThreshold atThresholdCluster [] [] (quotaWith 500 1000 990 1000)
      500 1000 990 1000 rfl rfl rfl rfl rfl (by decide) (by decide) (by decide)).2.2.1
      (by decide) (by decide) (by decide)).1
      (by rw [halfThreshold_eq]; norm_num [F64.toRat]),
    (threshold_test "ns1" defaultThreshold threeNamespaces [] [] quotaA 950 1000 500 1000
      rfl rfl rfl rfl rfl (by decide) (by decide) (by decide)).1.trans (by decide)⟩

/-- C2 does not hold as stated: with a CPU hard limit of 9007199254740995, which
`float64` rounds up, and 8106479329266896 used, the exact quotient is above
the threshold 0.9, as a decimal and as the binary64 value, and no CPU message
is emitted. -/
theorem threshold_test_rounding :
    (0 : Int) < 9007199254740995 ∧
    isInt64 8106479329266896 ∧ isInt64 9007199254740995 ∧
    F64.lt F64.zero defaultThreshold = true ∧
    F64.le defaultThreshold (F64.ofRatio false 99 100) = true ∧
    defaultThreshold.toRat ≤ (8106479329266896 : ℚ) / 9007199254740995 ∧
    (9 : ℚ) / 10 ≤ (8106479329266896 : ℚ) / 9007199254740995 ∧
    F64.ge (percentUsed 8106479329266896 9007199254740995) defaultThreshold = false ∧
    roundedLimitCluster.ResourceQuotas "ns1" =
      .ok [quotaWith 8106479329266896 9007199254740995 0 1000] ∧
    examineResourceQuotasForNamespace "ns1" defaultThreshold roundedLimitCluster = [] := by
  refine ⟨by decide, by decide, by decide, by decide, by decide, ?_, by norm_num,
    by decide, rfl, by decide⟩
  rw [defaultThreshold_eq]
  norm_num [F64.toRat]

end ResourceQuotaCheck
